import Mathlib

/-!
Verification development for the roosterjs editor-core subsystem:
the node-insertion placement algorithm (`insertNode` and its three placement
helpers in `coreAPI/insertNode.ts`), the undo-snapshot transaction
coordinator (`IEditor.addUndoSnapshot`), and the process-wide current-editor
holder (`setCurrentEditor`).

The content tree is embedded as a rose tree of DOM nodes carrying numeric
identities (`DomNode`).  Node identity (reference equality in the browser)
is modelled by the `id` field; structural mutation of the host tree is
modelled by rebuilding the tree along the index path of the mutated node.
Live DOM ranges are modelled as value quadruples (container id, offset) for
start and end; at the two mutation points where the browser adjusts live
ranges (`Range.deleteContents`, node removal during tag retyping) the
adjustment prescribed by the DOM standard is applied explicitly.
-/

namespace Rooster

/-- A DOM node: a text node, an element with a tag and children, or a
document fragment.  `id` models reference identity of the host object. -/
inductive DomNode where
  | text (id : Nat) (s : String)
  | elem (id : Nat) (tag : String) (children : List DomNode)
  | frag (id : Nat) (children : List DomNode)

mutual

def deqN : (a b : DomNode) → Decidable (a = b)
  | .text i s, .text j t =>
    if h1 : i = j then
      if h2 : s = t then .isTrue (by rw [h1, h2])
      else .isFalse (by intro h; cases h; exact h2 rfl)
    else .isFalse (by intro h; cases h; exact h1 rfl)
  | .text _ _, .elem _ _ _ => .isFalse nofun
  | .text _ _, .frag _ _ => .isFalse nofun
  | .elem _ _ _, .text _ _ => .isFalse nofun
  | .elem i t cs, .elem j u ds =>
    if h1 : i = j then
      if h2 : t = u then
        match deqL cs ds with
        | .isTrue h3 => .isTrue (by rw [h1, h2, h3])
        | .isFalse h3 => .isFalse (by intro h; cases h; exact h3 rfl)
      else .isFalse (by intro h; cases h; exact h2 rfl)
    else .isFalse (by intro h; cases h; exact h1 rfl)
  | .elem _ _ _, .frag _ _ => .isFalse nofun
  | .frag _ _, .text _ _ => .isFalse nofun
  | .frag _ _, .elem _ _ _ => .isFalse nofun
  | .frag i cs, .frag j ds =>
    if h1 : i = j then
      match deqL cs ds with
      | .isTrue h3 => .isTrue (by rw [h1, h3])
      | .isFalse h3 => .isFalse (by intro h; cases h; exact h3 rfl)
    else .isFalse (by intro h; cases h; exact h1 rfl)

def deqL : (a b : List DomNode) → Decidable (a = b)
  | [], [] => .isTrue rfl
  | [], _ :: _ => .isFalse nofun
  | _ :: _, [] => .isFalse nofun
  | a :: as, b :: bs =>
    match deqN a b with
    | .isTrue h1 =>
      match deqL as bs with
      | .isTrue h2 => .isTrue (by rw [h1, h2])
      | .isFalse h2 => .isFalse (by intro h; injection h; contradiction)
    | .isFalse h1 => .isFalse (by intro h; injection h; contradiction)

end

instance : DecidableEq DomNode := deqN

/-- The identity of a node (models reference identity of the DOM object). -/
def DomNode.nid : DomNode → Nat
  | .text i _ => i
  | .elem i _ _ => i
  | .frag i _ => i

/-- Child list of a node (`node.childNodes`); text nodes have none. -/
def DomNode.childList : DomNode → List DomNode
  | .text _ _ => []
  | .elem _ _ cs => cs
  | .frag _ cs => cs

/-- Replace the child list of a node; identity and tag are kept. -/
def DomNode.withChildList : DomNode → List DomNode → DomNode
  | .text i s, _ => .text i s
  | .elem i t _, cs => .elem i t cs
  | .frag i _, cs => .frag i cs

mutual

/-- All node identities in a subtree, in document (preorder) order. -/
def idList : DomNode → List Nat
  | .text i _ => [i]
  | .elem i _ cs => i :: idListL cs
  | .frag i cs => i :: idListL cs

def idListL : List DomNode → List Nat
  | [] => []
  | c :: cs => idList c ++ idListL cs

end

mutual

/-- Number of nodes in a subtree satisfying a predicate. -/
def countP (P : DomNode → Bool) : DomNode → Nat
  | .text i s => if P (.text i s) then 1 else 0
  | .elem i t cs => (if P (.elem i t cs) then 1 else 0) + countPL P cs
  | .frag i cs => (if P (.frag i cs) then 1 else 0) + countPL P cs

def countPL (P : DomNode → Bool) : List DomNode → Nat
  | [] => 0
  | c :: cs => countP P c + countPL P cs

end

/-- Number of nodes in the tree carrying identity `k`. -/
def occursId (k : Nat) (t : DomNode) : Nat :=
  countP (fun n => decide (n.nid = k)) t

/-- Number of subtrees of `t` structurally equal to `m`. -/
def subtreeCount (m : DomNode) (t : DomNode) : Nat :=
  countP (fun n => n = m) t

mutual

/-- Largest identity present in a subtree (used to mint fresh identities for
nodes the browser allocates: wrappers, retyped elements, split text). -/
def maxId : DomNode → Nat
  | .text i _ => i
  | .elem i _ cs => max i (maxIdL cs)
  | .frag i cs => max i (maxIdL cs)

def maxIdL : List DomNode → Nat
  | [] => 0
  | c :: cs => max (maxId c) (maxIdL cs)

end

/-- What actually enters the tree when a node is inserted: a document
fragment is spliced (its children are inserted), any other node is inserted
as such.  This is the DOM behaviour of `insertBefore`/`appendChild`/
`Range.insertNode` with a fragment argument. -/
def nodesOf : DomNode → List DomNode
  | .frag _ cs => cs
  | n => [n]

/-- Whether the node is a document fragment
(`node.nodeType == NodeType.DocumentFragment`). -/
def DomNode.isFrag : DomNode → Bool
  | .frag _ _ => true
  | _ => false

/-- Replace the element at index `i` of a list (identity elsewhere). -/
def modAt : List DomNode → Nat → (DomNode → DomNode) → List DomNode
  | [], _, _ => []
  | c :: cs, 0, f => f c :: cs
  | c :: cs, i + 1, f => c :: modAt cs i f

/-- Rebuild the tree along an index path, applying `f` to the node the path
denotes.  This is how a structural DOM mutation at one node is reflected in
the value-level tree. -/
def modifyAtPath : DomNode → List Nat → (DomNode → DomNode) → DomNode
  | t, [], f => f t
  | t, i :: p, f => t.withChildList (modAt t.childList i (fun c => modifyAtPath c p f))

/-- The node denoted by an index path, if the path is valid. -/
def nodeAt : DomNode → List Nat → Option DomNode
  | t, [] => some t
  | t, i :: p =>
    match t.childList[i]? with
    | some c => nodeAt c p
    | none => none

mutual

/-- Preorder search for the (first) node with identity `k`, returning its
index path from the root. -/
def pathIdx (k : Nat) : DomNode → Option (List Nat)
  | .text i _ => if i = k then some [] else none
  | .elem i _ cs => if i = k then some [] else pathIdxL k cs 0
  | .frag i cs => if i = k then some [] else pathIdxL k cs 0

def pathIdxL (k : Nat) : List DomNode → Nat → Option (List Nat)
  | [], _ => none
  | c :: cs, i =>
    match pathIdx k c with
    | some p => some (i :: p)
    | none => pathIdxL k cs (i + 1)

end

/-- Locate a node by identity (models dereferencing a DOM node reference). -/
def findNode (t : DomNode) (k : Nat) : Option DomNode :=
  match pathIdx k t with
  | some p => nodeAt t p
  | none => none

/-- `contains(container, node)` of roosterjs-editor-dom: whether the node is
in the subtree (DOM `Node.contains`, inclusive). -/
def containsNode (t : DomNode) (k : Nat) : Bool :=
  (pathIdx k t).isSome

/-- Path of the parent of node `k` together with the index of `k` among the
parent's children; `none` when `k` is the root or absent. -/
def parentIndexOf (t : DomNode) (k : Nat) : Option (List Nat × Nat) :=
  match pathIdx k t with
  | some [] => none
  | some p =>
    match p.getLast? with
    | some i => some (p.dropLast, i)
    | none => none
  | none => none

/-- Identity of the parent of node `k` and the index of `k` among its
children (models `node.parentNode` plus the position of `node`). -/
def parentIdIndexOf (t : DomNode) (k : Nat) : Option (Nat × Nat) :=
  match parentIndexOf t k with
  | some (pp, i) =>
    match nodeAt t pp with
    | some pn => some (pn.nid, i)
    | none => none
  | none => none

/-- Apply a child-list rewrite to the node with identity `pid` (the generic
shape of every child-level DOM mutation used by the insertion algorithm). -/
def editChildrenAt (t : DomNode) (pid : Nat) (f : List DomNode → List DomNode) : DomNode :=
  match pathIdx pid t with
  | some p => modifyAtPath t p (fun n => n.withChildList (f n.childList))
  | none => t

/-- Insert a list of nodes at position `i` of a child list. -/
def insListAt (cs : List DomNode) (i : Nat) (new : List DomNode) : List DomNode :=
  cs.take i ++ new ++ cs.drop i

/-- `refParentNode.insertBefore(node, refNode)`: insert `node` among the
children of the parent of `refId`, immediately before `refId`. -/
def insertInParentBefore (t : DomNode) (refId : Nat) (node : DomNode) : DomNode :=
  match parentIndexOf t refId with
  | some (pp, i) => modifyAtPath t pp (fun n => n.withChildList (insListAt n.childList i (nodesOf node)))
  | none => t

/-- `refParentNode.insertBefore(node, refNode.nextSibling)`: insert `node`
immediately after `refId` among its parent's children (appends when `refId`
is the last child, as `insertBefore` with a null reference does). -/
def insertInParentAfter (t : DomNode) (refId : Nat) (node : DomNode) : DomNode :=
  match parentIndexOf t refId with
  | some (pp, i) => modifyAtPath t pp (fun n => n.withChildList (insListAt n.childList (i + 1) (nodesOf node)))
  | none => t

/-- `getTagOfNode(node)` of roosterjs-editor-dom: the upper-case tag of an
element node, and the empty string for any other node.  Tags in this model
are stored upper-case, as `getTagOfNode` reports them. -/
def getTagOfNode : DomNode → String
  | .elem _ tg _ => tg
  | _ => ""

/-- Modelled from the spec: block-level tags.  `isBlockElement` of
roosterjs-editor-dom (not under src/) classifies an element as block-level
by its display/tag; the spec partitions content into block-level and
inline-level units with `DIV` and `P` as the block containers it names. -/
def blockTags : List String :=
  ["ADDRESS", "ARTICLE", "ASIDE", "BLOCKQUOTE", "DIV", "DL", "DT", "DD",
   "FIELDSET", "FOOTER", "FORM", "H1", "H2", "H3", "H4", "H5", "H6",
   "HEADER", "HR", "LI", "MAIN", "NAV", "OL", "P", "PRE", "SECTION",
   "TABLE", "TD", "TH", "TR", "UL"]

/-- Modelled from the spec: whether a node is a block-level element. -/
def isBlockElement (n : DomNode) : Bool :=
  match n with
  | .elem _ tg _ => blockTags.contains tg
  | _ => false

/-- Void HTML elements ("HR, BR etc." per the source comments): elements
that cannot have children. -/
def voidTags : List String :=
  ["AREA", "BASE", "BR", "COL", "EMBED", "HR", "IMG", "INPUT", "LINK",
   "META", "PARAM", "SOURCE", "TRACK", "WBR"]

/-- `isVoidHtmlElement(node)`: the node is an element with a void tag. -/
def isVoidHtmlElement (n : DomNode) : Bool :=
  match n with
  | .elem _ tg _ => voidTags.contains tg
  | _ => false

/-- Whether the node is a text node (`node.nodeType == NodeType.Text`). -/
def isTextNode : DomNode → Bool
  | .text _ _ => true
  | _ => false

mutual

/-- Deepest first descendant: identity and begin offset of the node reached
by repeatedly taking `firstChild`; a node with no children yields itself. -/
def descFirst : DomNode → Nat × Nat
  | .text i _ => (i, 0)
  | .elem i _ cs => descFirstL i cs
  | .frag i cs => descFirstL i cs

def descFirstL (self : Nat) : List DomNode → Nat × Nat
  | [] => (self, 0)
  | c :: _ => descFirst c

end

mutual

/-- Deepest last descendant: identity and end offset of the node reached by
repeatedly taking `lastChild`; for a text node the offset is its length. -/
def descLast : DomNode → Nat × Nat
  | .text i s => (i, s.length)
  | .elem i _ cs => descLastL i cs
  | .frag i cs => descLastL i cs

def descLastL (self : Nat) : List DomNode → Nat × Nat
  | [] => (self, 0)
  | [c] => descLast c
  | _ :: c :: cs => descLastL self (c :: cs)

end

/-- `getFirstLeafNode(root)`: descend through `firstChild` starting from the
root's first child; `none` when the root has no children. -/
def getFirstLeafNode (t : DomNode) : Option Nat :=
  match t.childList with
  | [] => none
  | c :: _ => some (descFirst c).1

/-- `getLastLeafNode(root)`: descend through `lastChild` starting from the
root's last child; `none` when the root has no children. -/
def getLastLeafNode (t : DomNode) : Option Nat :=
  match t.childList.getLast? with
  | none => none
  | some c => some (descLast c).1

/-- Walk the index path from the root, remembering the deepest block-level
element passed through (the root itself is never considered). -/
def blockOnPath (t : DomNode) (best : Option Nat) : List Nat → Option Nat
  | [] => best
  | i :: rest =>
    match t.childList[i]? with
    | some c => blockOnPath c (if isBlockElement c then some c.nid else best) rest
    | none => best

/-- Modelled from the spec: `getBlockElementAtNode(root, node)` of
roosterjs-editor-dom (not under src/) "walks upward from `node` until it
finds the maximal block boundary, returning null if `node` is outside
`root`".  The model returns the nearest block-level ancestor-or-self of the
node strictly below the root; the resulting block element has this node as
both its start and its end node (`getStartNode()` / `getEndNode()`). -/
def getBlockElementAtNode (t : DomNode) (k? : Option Nat) : Option Nat :=
  match k? with
  | none => none
  | some k =>
    match pathIdx k t with
    | none => none
    | some p => blockOnPath t none p

/-- A DOM range as a value: start container identity, start offset, end
container identity, end offset. -/
structure Rng where
  sc : Nat
  so : Nat
  ec : Nat
  eo : Nat
deriving DecidableEq

/-- `range.collapsed`: both boundary points coincide. -/
def Rng.collapsed (r : Rng) : Bool :=
  r.sc = r.ec && r.so = r.eo

/-- Build the collapsed range at one boundary point. -/
def collapsedAt (n : Nat) (o : Nat) : Rng := ⟨n, o, n, o⟩

/-- Selection as observed after the operation: either a range was selected
(`select(core, range)`) or the cursor was placed immediately after a node
(`select(core, node, Position.After)`). -/
inductive SelState where
  | noSel
  | selRange (r : Rng)
  | selAfterNode (k : Nat)
deriving DecidableEq

/-- `ContentPosition` of roosterjs-editor-types. -/
inductive ContentPosition where
  | begin
  | atEnd
  | selectionStart
  | outside
deriving DecidableEq

/-- `InsertOption` of roosterjs-editor-types. -/
structure InsertOption where
  position : ContentPosition
  updateCursor : Bool
  replaceSelection : Bool
  insertOnNewLine : Bool
deriving DecidableEq

/-- The slice of `EditorCore` the insertion algorithm touches: the editor
root (`contentDiv`), the live selection range of the host document, the
cached backup range, and the selection state written through `select`. -/
structure EditorCore where
  contentDiv : DomNode
  liveRange : Option Rng
  cachedRange : Option Rng
  sel : SelState

/-- Resolve a position whose container is an element with children to the
deepest equivalent position (modelled from the spec, §4.1: `normalize()`
resolves a position into a concrete node+offset, descending through
containers; a position whose container has no children falls back to the
container itself). -/
def normChild (cs : List DomNode) : Nat → Nat × Nat
  | off =>
    match cs[off]? with
    | some c => descFirst c
    | none =>
      match cs.getLast? with
      | some l => descLast l
      | none => (0, 0)

/-- Normalize one boundary point of a range against the tree. -/
def normalizePos (t : DomNode) (cid off : Nat) : Nat × Nat :=
  match findNode t cid with
  | some (.elem _ _ (c :: cs)) => normChild (c :: cs) off
  | some (.frag _ (c :: cs)) => normChild (c :: cs) off
  | _ => (cid, off)

/-- `new SelectionRange(rawRange).normalize()`: normalize both boundaries. -/
def normalizeRng (t : DomNode) (r : Rng) : Rng :=
  let s := normalizePos t r.sc r.so
  let e := normalizePos t r.ec r.eo
  ⟨s.1, s.2, e.1, e.2⟩

/-- Truncate content after a boundary point: descend along the index path;
below the path every right sibling is removed, and at the boundary node a
text keeps its first `off` characters, an element its first `off` children.
(The start-side half of the DOM `deleteContents` algorithm.) -/
def delAfter (off : Nat) : List Nat → DomNode → DomNode
  | [], .text i s => .text i (s.take off)
  | [], n => n.withChildList (n.childList.take off)
  | k :: ks, n =>
    match n.childList[k]? with
    | some c => n.withChildList (n.childList.take k ++ [delAfter off ks c])
    | none => n

/-- Truncate content before a boundary point (the end-side half of the DOM
`deleteContents` algorithm). -/
def delBefore (off : Nat) : List Nat → DomNode → DomNode
  | [], .text i s => .text i (s.drop off)
  | [], n => n.withChildList (n.childList.drop off)
  | k :: ks, n =>
    match n.childList[k]? with
    | some c => n.withChildList (delBefore off ks c :: n.childList.drop (k + 1))
    | none => n

/-- Longest common prefix of two index paths. -/
def commonPref : List Nat → List Nat → List Nat
  | i :: ps, j :: pe => if i = j then i :: commonPref ps pe else []
  | _, _ => []

/-- `Range.deleteContents()` when the two boundary containers differ, given
their index paths: remove every node fully contained in the range, truncate
the partially contained boundary containers, and leave the range collapsed
at the cut point, as the DOM standard prescribes.  An inverted or otherwise
malformed range leaves the tree unchanged. -/
def deleteCross (t : DomNode) (r : Rng) (ps pe : List Nat) : DomNode × Rng :=
  let ca := commonPref ps pe
  let d := ca.length
  if ps.length = d then
    match pe[d]? with
    | some jj =>
      if r.so ≤ jj then
        (modifyAtPath t ps (fun n =>
           match n.childList[jj]? with
           | some c => n.withChildList
               (n.childList.take r.so ++ [delBefore r.eo (pe.drop (d + 1)) c] ++ n.childList.drop (jj + 1))
           | none => n),
         collapsedAt r.sc r.so)
      else (t, r)
    | none => (t, r)
  else if pe.length = d then
    match ps[d]? with
    | some ii =>
      if ii < r.eo then
        (modifyAtPath t pe (fun n =>
           match n.childList[ii]? with
           | some c => n.withChildList
               (n.childList.take ii ++ [delAfter r.so (ps.drop (d + 1)) c] ++ n.childList.drop r.eo)
           | none => n),
         collapsedAt r.ec (ii + 1))
      else (t, r)
    | none => (t, r)
  else
    match ps[d]?, pe[d]? with
    | some i, some j =>
      if i < j then
        (modifyAtPath t ca (fun n =>
           match n.childList[i]?, n.childList[j]? with
           | some ci, some cj =>
             n.withChildList
               (n.childList.take i ++ [delAfter r.so (ps.drop (d + 1)) ci]
                 ++ [delBefore r.eo (pe.drop (d + 1)) cj] ++ n.childList.drop (j + 1))
           | _, _ => n),
         match nodeAt t ca with
         | some a => collapsedAt a.nid (i + 1)
         | none => r)
      else (t, r)
    | _, _ => (t, r)

/-- `rawRange.deleteContents()`: DOM semantics.  A collapsed range deletes
nothing.  With both boundaries in the same text node the selected characters
are removed; in the same element the selected children are removed; across
containers `deleteCross` applies.  The returned range is the live range
after the call: collapsed at the cut point. -/
def deleteContents (t : DomNode) (r : Rng) : DomNode × Rng :=
  if r.collapsed then (t, r)
  else if r.sc = r.ec then
    if r.so ≤ r.eo then
      match pathIdx r.sc t with
      | none => (t, r)
      | some p =>
        match nodeAt t p with
        | some (.text i s) =>
          (modifyAtPath t p (fun _ => .text i (s.take r.so ++ s.drop r.eo)), collapsedAt r.sc r.so)
        | some _ =>
          (modifyAtPath t p (fun m => m.withChildList (m.childList.take r.so ++ m.childList.drop r.eo)),
           collapsedAt r.sc r.so)
        | none => (t, r)
    else (t, r)
  else
    match pathIdx r.sc t, pathIdx r.ec t with
    | some ps, some pe => deleteCross t r ps pe
    | _, _ => (t, r)

/-- `rawRange.insertNode(node)`: DOM semantics.  With the start container a
text node, the text is split at the start offset and the node is inserted
between the halves (the second half is a freshly allocated text node); with
an element container the node is inserted before the child at the start
offset (at the end when the offset is past the children).  A fragment is
spliced.  A range whose start container is not in the tree inserts
nothing. -/
def insertNodeIntoRange (t : DomNode) (r : Rng) (node : DomNode) : DomNode :=
  match pathIdx r.sc t with
  | none => t
  | some p =>
    match nodeAt t p with
    | some (.text i s) =>
      match p.getLast? with
      | some idx =>
        modifyAtPath t p.dropLast (fun n =>
          n.withChildList
            (n.childList.take idx
              ++ [DomNode.text i (s.take r.so)] ++ nodesOf node
              ++ [DomNode.text (maxId t + 1) (s.drop r.so)]
              ++ n.childList.drop (idx + 1)))
      | none => t
    | some _ =>
      modifyAtPath t p (fun m => m.withChildList (insListAt m.childList r.so (nodesOf node)))
    | none => t

/-- `wrap(node, '<div></div>')` of roosterjs-editor-dom: insert a freshly
created DIV at the node's position and move the node into it. -/
def wrapInDiv (t : DomNode) (k : Nat) : DomNode :=
  match parentIndexOf t k with
  | some (pp, i) =>
    modifyAtPath t pp (fun n =>
      n.withChildList (modAt n.childList i (fun c => .elem (maxId t + 1) "DIV" [c])))
  | none => t

/-- `changeElementTag(element, 'div')` of roosterjs-editor-dom: create a new
element with the new tag, move the children over, and replace the old
element in its parent; returns the tree and the identity of the new
element.  The new element is a fresh host object, hence a fresh identity. -/
def changeElementTag (t : DomNode) (k : Nat) (newTag : String) : DomNode × Nat :=
  match pathIdx k t with
  | some p =>
    (modifyAtPath t p (fun n => .elem (maxId t + 1) newTag n.childList), maxId t + 1)
  | none => (t, 0)

/-- Live-range adjustment performed by the browser while `changeElementTag`
replaces element `k`: each boundary point whose container is `k` or a
descendant of `k` ends up at the former slot of `k` in its parent (the DOM
range-adjustment steps for node removal, applied to the child moves and the
final `replaceChild`); boundaries outside `k` are untouched. -/
def adjustRangeForRetype (t : DomNode) (k : Nat) (r : Rng) : Rng :=
  let sub :=
    match findNode t k with
    | some n => idList n
    | none => []
  match parentIdIndexOf t k with
  | some (pid, i) =>
    let s := if sub.contains r.sc then (pid, i) else (r.sc, r.so)
    let e := if sub.contains r.ec then (pid, i) else (r.ec, r.eo)
    ⟨s.1, s.2, e.1, e.2⟩
  | none => r

/-- `getLiveRange(core)`: the host document's current selection range, when
the editor has one (modelled as a state field; `getLiveRange` is not under
src/). -/
def getLiveRange (core : EditorCore) : Option Rng :=
  core.liveRange

/-- Modelled from the spec: `focus(core)` (not under src/) moves DOM focus
into the editor and, when no live range exists, restores the selection from
the cached range, falling back to the begin of the content; it performs no
content-tree mutation. -/
def focus (core : EditorCore) : EditorCore :=
  match core.liveRange with
  | some _ => core
  | none =>
    match core.cachedRange with
    | some r => { core with liveRange := some r }
    | none =>
      let b := descFirst core.contentDiv
      { core with liveRange := some (collapsedAt b.1 b.2) }

/-- The final-check wrap of `insertNodeAtBegin`/`insertNodeAtEnd` (lines
91-95 and 136-140 of insertNode.ts): if insert-on-new-line was asked and the
inserted node is not block-level, wrap it in an empty DIV. -/
def wrapFinal (t : DomNode) (node : DomNode) (o : InsertOption) : DomNode :=
  if o.insertOnNewLine && !isBlockElement node then wrapInDiv t node.nid else t

/-- `insertNodeAtBegin(core, node, option)` (insertNode.ts lines 53-96),
acting on the content tree: locate the first block; on a new line insert
before the block's start node; otherwise insert inside the block — before
its first child when it has one, as a previous sibling when the start node
is text or a void element, or as sole child of an empty element; with no
block at all append to the editor root.  Finally apply the wrap check. -/
def insertNodeAtBegin (t : DomNode) (node : DomNode) (o : InsertOption) : DomNode :=
  let inserted :=
    match getBlockElementAtNode t (getFirstLeafNode t) with
    | some refNode =>
      if o.insertOnNewLine then
        insertInParentBefore t refNode node
      else
        match findNode t refNode with
        | some (.elem _ _ (_ :: _)) =>
          editChildrenAt t refNode (fun cs => nodesOf node ++ cs)
        | some n =>
          if isTextNode n || isVoidHtmlElement n then insertInParentBefore t refNode node
          else editChildrenAt t refNode (fun cs => cs ++ nodesOf node)
        | none => t
    | none => editChildrenAt t t.nid (fun cs => cs ++ nodesOf node)
  wrapFinal inserted node o

/-- `insertNodeAtEnd(core, node, option)` (insertNode.ts lines 99-141),
symmetric to `insertNodeAtBegin` on the last block with insert-after /
append semantics, followed by the wrap check. -/
def insertNodeAtEnd (t : DomNode) (node : DomNode) (o : InsertOption) : DomNode :=
  let inserted :=
    match getBlockElementAtNode t (getLastLeafNode t) with
    | some refNode =>
      if o.insertOnNewLine then
        insertInParentAfter t refNode node
      else
        match findNode t refNode with
        | some (.elem _ _ (_ :: _)) =>
          editChildrenAt t refNode (fun cs => cs ++ nodesOf node)
        | some n =>
          if isTextNode n || isVoidHtmlElement n then insertInParentAfter t refNode node
          else editChildrenAt t refNode (fun cs => cs ++ nodesOf node)
        | none => t
    | none => editChildrenAt t t.nid (fun cs => cs ++ nodesOf node)
  wrapFinal inserted node o

/-- Lines 148-150 of insertNode.ts: when `replaceSelection` is set and the
range is not collapsed, delete the range contents first. -/
def selDeleteStep (t : DomNode) (r : Rng) (o : InsertOption) : DomNode × Rng :=
  if o.replaceSelection && !r.collapsed then deleteContents t r else (t, r)

/-- Lines 155-182 of insertNode.ts: adjust the insertion range relative to
the block containing the range start.  On a new line, move the insertion
point to just after the block's end node.  When the block's end node is a P,
normalize a cache of the range, retype the P to a DIV, and — when both
cached boundary nodes differ from the new DIV and are still contained in the
root — use the cached range; otherwise the (browser-adjusted) raw range
stays in effect. -/
def selAdjustStep (t : DomNode) (r : Rng) (o : InsertOption) : DomNode × Rng :=
  match getBlockElementAtNode t (some r.sc) with
  | none => (t, r)
  | some endNode =>
    if o.insertOnNewLine then
      match parentIdIndexOf t endNode with
      | some (pid, i) => (t, collapsedAt pid (i + 1))
      | none => (t, r)
    else if getTagOfNode ((findNode t endNode).getD (.text 0 "")) = "P" then
      let rangeCache := normalizeRng t r
      let retyped := changeElementTag t endNode "DIV"
      if rangeCache.sc ≠ retyped.2 ∧ rangeCache.ec ≠ retyped.2
          ∧ containsNode retyped.1 rangeCache.sc ∧ containsNode retyped.1 rangeCache.ec then
        (retyped.1, rangeCache)
      else
        (retyped.1, adjustRangeForRetype t endNode r)
    else (t, r)

/-- `nodeForCursor` (line 184 of insertNode.ts): the node the cursor is
placed after — the fragment's last child for a fragment, the node itself
otherwise. -/
def nodeForCursorId : DomNode → Option Nat
  | .frag _ cs => (cs.getLast?).map DomNode.nid
  | n => some n.nid

/-- `insertNodeAtSelection(core, node, option)` (insertNode.ts lines
144-193): resolve the live range or the cached backup (no resolvable range
means no mutation at all); optionally delete the selection; clone the range;
adjust it against the containing block; insert the node at the adjusted
range; then either place the cursor after the inserted content or restore
the cloned range.  Also returns the range the insertion actually used. -/
def insertNodeAtSelection (core : EditorCore) (node : DomNode) (o : InsertOption) :
    EditorCore × Option Rng :=
  let rawRange0 :=
    match getLiveRange core with
    | some r => some r
    | none => core.cachedRange
  match rawRange0 with
  | none => (core, none)
  | some rawRange =>
    let s1 := selDeleteStep core.contentDiv rawRange o
    let clonedRange := s1.2
    let s2 := selAdjustStep s1.1 s1.2 o
    let t3 := insertNodeIntoRange s2.1 s2.2 node
    let newSel :=
      match o.updateCursor, nodeForCursorId node with
      | true, some k => SelState.selAfterNode k
      | _, _ => SelState.selRange clonedRange
    ({ core with contentDiv := t3, sel := newSel }, some s2.2)

/-- Result of `insertNode`: the new core state, the boolean return value,
and (for the selection path) the range the insertion used. -/
structure InsertNodeResult where
  core : EditorCore
  ret : Bool
  used : Option Rng

/-- The default insert option (insertNode.ts lines 23-28). -/
def defaultInsertOption : InsertOption :=
  ⟨ContentPosition.selectionStart, true, true, false⟩

/-- `insertNode(core, node, option)` (insertNode.ts lines 22-50): apply the
default option, focus when the cursor is to be updated, dispatch on the
position, and return true.  The Outside position inserts as the next
sibling of the editor root inside the host document, outside the modelled
content tree, which is therefore unchanged. -/
def insertNode (core : EditorCore) (node : DomNode) (o? : Option InsertOption) :
    InsertNodeResult :=
  let o := o?.getD defaultInsertOption
  let core1 := if o.updateCursor then focus core else core
  match o.position with
  | .begin =>
    ⟨{ core1 with contentDiv := insertNodeAtBegin core1.contentDiv node o }, true, none⟩
  | .atEnd =>
    ⟨{ core1 with contentDiv := insertNodeAtEnd core1.contentDiv node o }, true, none⟩
  | .selectionStart =>
    let p := insertNodeAtSelection core1 node o
    ⟨p.1, true, p.2⟩
  | .outside => ⟨core1, true, none⟩

/-- A content-changed notification: its change source, the data payload
(the callback's return value), and the content of the tree at the moment
the notification fired. -/
structure ChangeEvent where
  source : String
  data : Nat
  contentAtFire : List Nat
deriving DecidableEq

/-- State of one editor's undo-snapshot coordinator: the reentrancy depth,
the content (as the list of mutations applied so far), the snapshots
captured, and the notifications emitted. -/
structure UndoState where
  depth : Nat
  content : List Nat
  snapshots : List (List Nat)
  events : List ChangeEvent
deriving DecidableEq

/-- A step a format callback can take: mutate the content tree, or re-enter
`addUndoSnapshot` with a nested callback (its own steps, return value and
change source). -/
inductive UndoAct where
  | mutate (m : Nat)
  | nest (inner : List UndoAct) (ret : Nat) (changeSource : Option String)

mutual

/-- Run one callback step. -/
def runAct : UndoState → UndoAct → UndoState
  | st, .mutate m => { st with content := st.content ++ [m] }
  | st, .nest inner ret cs => addUndoSnapshot st inner ret cs

/-- Run the steps of a callback in order. -/
def runActs : UndoState → List UndoAct → UndoState
  | st, [] => st
  | st, a :: as => runActs (runAct st a) as

/-- Modelled from the spec (§4.4) and the `IEditor.addUndoSnapshot` doc
comment; the implementation is not under src/.  `addUndoSnapshot(callback,
changeSource)`: when idle, capture a before-snapshot, run the callback at
depth 1, capture an after-snapshot, return to idle, and — only when a
change source was supplied — emit one content-changed notification carrying
the callback's return value; when re-entered during a callback, just run
the nested callback: no snapshots, no notification. -/
def addUndoSnapshot (st : UndoState) (callback : List UndoAct) (ret : Nat)
    (changeSource : Option String) : UndoState :=
  if st.depth = 0 then
    let st1 := { st with depth := 1, snapshots := st.snapshots ++ [st.content] }
    let st2 := runActs st1 callback
    let st3 := { st2 with depth := 0, snapshots := st2.snapshots ++ [st2.content] }
    match changeSource with
    | some s => { st3 with events := st3.events ++ [⟨s, ret, st3.content⟩] }
    | none => st3
  else
    runActs st callback

end

/-- The process-wide current-editor holder of `getCurrentEditor.ts`
(src/unnamed/part_000): the module-level `editor` variable, as the identity
of the current editor, if any. -/
structure EditorRegistry where
  current : Option Nat
deriving DecidableEq

/-- Observable actions of `setCurrentEditor`, in order: disposing an editor
and installing a new current editor. -/
inductive RegistryEvent where
  | disposeOf (k : Nat)
  | installed (k : Nat)
deriving DecidableEq

/-- `getCurrentEditor()`: return the module-level `editor`. -/
def getCurrentEditor (st : EditorRegistry) : Option Nat :=
  st.current

/-- `setCurrentEditor(newEditor)`: if an editor is already set, call
`dispose()` on it, then store the new editor.  Returns the new state and
the trace of observable actions in execution order. -/
def setCurrentEditor (st : EditorRegistry) (newEditor : Nat) :
    EditorRegistry × List RegistryEvent :=
  let disposeTrace :=
    match st.current with
    | some old => [RegistryEvent.disposeOf old]
    | none => []
  (⟨some newEditor⟩, disposeTrace ++ [RegistryEvent.installed newEditor])

/-! ### Structural lemmas about the tree model -/

@[simp] theorem nid_text (i : Nat) (s : String) : (DomNode.text i s).nid = i := rfl

@[simp] theorem nid_elem (i : Nat) (tg : String) (cs : List DomNode) :
    (DomNode.elem i tg cs).nid = i := rfl

@[simp] theorem nid_frag (i : Nat) (cs : List DomNode) : (DomNode.frag i cs).nid = i := rfl

@[simp] theorem childList_text (i : Nat) (s : String) : (DomNode.text i s).childList = [] := rfl

@[simp] theorem childList_elem (i : Nat) (tg : String) (cs : List DomNode) :
    (DomNode.elem i tg cs).childList = cs := rfl

@[simp] theorem childList_frag (i : Nat) (cs : List DomNode) :
    (DomNode.frag i cs).childList = cs := rfl

@[simp] theorem withChildList_text (i : Nat) (s : String) (l : List DomNode) :
    (DomNode.text i s).withChildList l = DomNode.text i s := rfl

@[simp] theorem withChildList_elem (i : Nat) (tg : String) (cs l : List DomNode) :
    (DomNode.elem i tg cs).withChildList l = DomNode.elem i tg l := rfl

@[simp] theorem withChildList_frag (i : Nat) (cs l : List DomNode) :
    (DomNode.frag i cs).withChildList l = DomNode.frag i l := rfl

@[simp] theorem countPL_nil (P : DomNode → Bool) : countPL P [] = 0 := rfl

@[simp] theorem countPL_cons (P : DomNode → Bool) (c : DomNode) (cs : List DomNode) :
    countPL P (c :: cs) = countP P c + countPL P cs := by
  rw [countPL]

theorem countPL_childList_le (P : DomNode → Bool) (t : DomNode) :
    countPL P t.childList ≤ countP P t := by
  cases t <;> simp [countP] <;> omega

theorem countP_decompose (P : DomNode → Bool) (n : DomNode) :
    countP P n = (if P n then 1 else 0) + countPL P n.childList := by
  cases n <;> simp [countP]

theorem nid_withChildList (n : DomNode) (cs : List DomNode) :
    (n.withChildList cs).nid = n.nid := by
  cases n <;> rfl

theorem childList_withChildList (n : DomNode) (cs : List DomNode) (c : DomNode) (i : Nat)
    (h : n.childList[i]? = some c) : (n.withChildList cs).childList = cs := by
  cases n with
  | text j s => simp [DomNode.childList] at h
  | elem j tg l => rfl
  | frag j l => rfl

theorem countPL_append (P : DomNode → Bool) (l1 l2 : List DomNode) :
    countPL P (l1 ++ l2) = countPL P l1 + countPL P l2 := by
  induction l1 with
  | nil => simp [countPL]
  | cons c cs ih => simp [countPL, ih]; omega

theorem countP_le_countPL_of_getElem (P : DomNode → Bool) (cs : List DomNode) (i : Nat)
    (c : DomNode) (h : cs[i]? = some c) : countP P c ≤ countPL P cs := by
  induction cs generalizing i with
  | nil => simp at h
  | cons d ds ih =>
    cases i with
    | zero =>
      simp at h
      subst h
      simp only [countPL]
      omega
    | succ j =>
      simp at h
      have := ih j h
      simp only [countPL]
      omega

theorem countPL_modAt (P : DomNode → Bool) (cs : List DomNode) (i : Nat) (c : DomNode)
    (f : DomNode → DomNode) (h : cs[i]? = some c) :
    countPL P (modAt cs i f) + countP P c = countPL P cs + countP P (f c) := by
  induction cs generalizing i with
  | nil => simp at h
  | cons d ds ih =>
    cases i with
    | zero =>
      simp at h
      subst h
      simp [modAt, countPL]
      omega
    | succ j =>
      simp at h
      have := ih j h
      simp [modAt, countPL]
      omega

theorem getElem_modAt (cs : List DomNode) (i : Nat) (f : DomNode → DomNode) (c : DomNode)
    (h : cs[i]? = some c) : (modAt cs i f)[i]? = some (f c) := by
  induction cs generalizing i with
  | nil => simp at h
  | cons d ds ih =>
    cases i with
    | zero => simp at h; subst h; simp [modAt]
    | succ j => simp at h; simpa [modAt] using ih j h

/-- Counting nodes through a path-local rewrite, for predicates insensitive
to a node's children (such as identity predicates): only the rewritten
subtree changes the count. -/
theorem countP_modifyAtPath (P : DomNode → Bool)
    (hP : ∀ n cs, P (n.withChildList cs) = P n)
    (p : List Nat) (t n : DomNode) (f : DomNode → DomNode)
    (h : nodeAt t p = some n) :
    countP P (modifyAtPath t p f) + countP P n = countP P t + countP P (f n) := by
  induction p generalizing t with
  | nil =>
    simp [nodeAt] at h
    subst h
    simp [modifyAtPath]
    omega
  | cons i p ih =>
    simp only [nodeAt] at h
    cases hc : t.childList[i]? with
    | none => rw [hc] at h; exact absurd h (by simp)
    | some c =>
      rw [hc] at h
      have hrec := ih c h
      cases t with
      | text j s => simp [DomNode.childList] at hc
      | elem j tg l =>
        simp only [DomNode.childList] at hc
        have hmod := countPL_modAt P l i c (fun d => modifyAtPath d p f) hc
        have hPE := hP (DomNode.elem j tg l) (modAt l i fun d => modifyAtPath d p f)
        simp only [DomNode.withChildList] at hPE
        simp only [modifyAtPath, DomNode.withChildList, DomNode.childList]
        simp only [countP, hPE]
        simp only [countP] at hmod hrec ⊢
        omega
      | frag j l =>
        simp only [DomNode.childList] at hc
        have hmod := countPL_modAt P l i c (fun d => modifyAtPath d p f) hc
        have hPE := hP (DomNode.frag j l) (modAt l i fun d => modifyAtPath d p f)
        simp only [DomNode.withChildList] at hPE
        simp only [modifyAtPath, DomNode.withChildList, DomNode.childList]
        simp only [countP, hPE]
        simp only [countP] at hmod hrec ⊢
        omega

/-- The node a path denotes, after a rewrite at that same path. -/
theorem nodeAt_modifyAtPath (p : List Nat) (t n : DomNode) (f : DomNode → DomNode)
    (h : nodeAt t p = some n) :
    nodeAt (modifyAtPath t p f) p = some (f n) := by
  induction p generalizing t with
  | nil =>
    simp [nodeAt] at h
    subst h
    simp [modifyAtPath, nodeAt]
  | cons i p ih =>
    simp only [nodeAt] at h
    cases hc : t.childList[i]? with
    | none => rw [hc] at h; exact absurd h (by simp)
    | some c =>
      rw [hc] at h
      have hrec := ih c h
      simp only [modifyAtPath, nodeAt]
      rw [childList_withChildList t _ c i hc]
      rw [getElem_modAt t.childList i _ c hc]
      exact hrec

theorem nodeAt_append_last (t : DomNode) (q : List Nat) (i : Nat) :
    nodeAt t (q ++ [i]) = match nodeAt t q with
      | some m => match m.childList[i]? with
        | some c => some c
        | none => none
      | none => none := by
  induction q generalizing t with
  | nil =>
    cases hc : t.childList[i]? with
    | none => simp [nodeAt, hc]
    | some c => simp [nodeAt, hc]
  | cons j q ih =>
    simp only [List.cons_append, nodeAt]
    cases t.childList[j]? with
    | none => rfl
    | some c => exact ih c

mutual

theorem pathIdx_eq_none_iff (k : Nat) (t : DomNode) :
    pathIdx k t = none ↔ occursId k t = 0 := by
  cases t with
  | text i s =>
    by_cases h : i = k <;> simp [pathIdx, occursId, countP, h]
  | elem i tg cs =>
    by_cases h : i = k
    · simp [pathIdx, occursId, countP, h]
    · have hl := pathIdxL_eq_none_iff k cs 0
      simp [pathIdx, occursId, countP, h, hl]
  | frag i cs =>
    by_cases h : i = k
    · simp [pathIdx, occursId, countP, h]
    · have hl := pathIdxL_eq_none_iff k cs 0
      simp [pathIdx, occursId, countP, h, hl]

theorem pathIdxL_eq_none_iff (k : Nat) (cs : List DomNode) (b : Nat) :
    pathIdxL k cs b = none ↔ countPL (fun n => decide (n.nid = k)) cs = 0 := by
  cases cs with
  | nil => simp [pathIdxL, countPL]
  | cons c cs =>
    have hn := pathIdx_eq_none_iff k c
    have hl := pathIdxL_eq_none_iff k cs (b + 1)
    cases h : pathIdx k c with
    | some p =>
      have : ¬ occursId k c = 0 := by
        intro h0
        rw [← hn] at h0
        rw [h] at h0
        exact absurd h0 (by simp)
      simp only [occursId] at this
      simp [pathIdxL, h, countPL]
      omega
    | none =>
      have h0 : occursId k c = 0 := hn.mp h
      simp only [occursId] at h0
      simp [pathIdxL, h, countPL, hl, h0]

end

mutual

theorem pathIdx_sound (k : Nat) (t : DomNode) (p : List Nat) (h : pathIdx k t = some p) :
    ∃ n, nodeAt t p = some n ∧ n.nid = k := by
  cases t with
  | text i s =>
    by_cases hik : i = k
    · simp [pathIdx, hik] at h
      subst h
      exact ⟨.text i s, by simp [nodeAt], by simp [DomNode.nid, hik]⟩
    · simp [pathIdx, hik] at h
  | elem i tg cs =>
    by_cases hik : i = k
    · simp [pathIdx, hik] at h
      subst h
      exact ⟨.elem i tg cs, by simp [nodeAt], by simp [DomNode.nid, hik]⟩
    · simp only [pathIdx, hik, if_false] at h
      obtain ⟨j, c, q, hp, hc, hq⟩ := pathIdxL_sound k cs 0 p h
      obtain ⟨n, hn, hk⟩ := pathIdx_sound k c q hq
      refine ⟨n, ?_, hk⟩
      simp only [hp, nodeAt, DomNode.childList]
      simp only [Nat.zero_add]
      rw [hc]
      exact hn
  | frag i cs =>
    by_cases hik : i = k
    · simp [pathIdx, hik] at h
      subst h
      exact ⟨.frag i cs, by simp [nodeAt], by simp [DomNode.nid, hik]⟩
    · simp only [pathIdx, hik, if_false] at h
      obtain ⟨j, c, q, hp, hc, hq⟩ := pathIdxL_sound k cs 0 p h
      obtain ⟨n, hn, hk⟩ := pathIdx_sound k c q hq
      refine ⟨n, ?_, hk⟩
      simp only [hp, nodeAt, DomNode.childList]
      simp only [Nat.zero_add]
      rw [hc]
      exact hn

theorem pathIdxL_sound (k : Nat) (cs : List DomNode) (b : Nat) (p : List Nat)
    (h : pathIdxL k cs b = some p) :
    ∃ i c q, p = (b + i) :: q ∧ cs[i]? = some c ∧ pathIdx k c = some q := by
  cases cs with
  | nil => simp [pathIdxL] at h
  | cons c cs =>
    cases hc : pathIdx k c with
    | some q =>
      simp [pathIdxL, hc] at h
      exact ⟨0, c, q, by simp [← h], by simp, hc⟩
    | none =>
      simp only [pathIdxL, hc] at h
      obtain ⟨i, d, q, hp, hd, hq⟩ := pathIdxL_sound k cs (b + 1) p h
      refine ⟨i + 1, d, q, ?_, by simpa using hd, hq⟩
      rw [hp]
      congr 1
      omega

end

theorem countP_le_of_nodeAt (P : DomNode → Bool) (t m : DomNode) (p : List Nat)
    (h : nodeAt t p = some m) : countP P m ≤ countP P t := by
  induction p generalizing t with
  | nil => simp [nodeAt] at h; subst h; exact le_rfl
  | cons i p ih =>
    simp only [nodeAt] at h
    cases hc : t.childList[i]? with
    | none => rw [hc] at h; exact absurd h (by simp)
    | some c =>
      rw [hc] at h
      have h1 := ih c h
      have h2 := countP_le_countPL_of_getElem P t.childList i c hc
      have h3 := countPL_childList_le P t
      omega

theorem occursId_self (m : DomNode) : 1 ≤ occursId m.nid m := by
  cases m <;> simp [occursId, countP, DomNode.nid]

mutual

theorem le_maxId_of_occurs (k : Nat) (t : DomNode) (h : 1 ≤ occursId k t) :
    k ≤ maxId t := by
  cases t with
  | text i s =>
    by_cases hik : i = k
    · subst hik; simp [maxId]
    · simp [occursId, countP, hik] at h
  | elem i tg cs =>
    by_cases hik : i = k
    · subst hik; simp [maxId]
    · simp [occursId, countP, hik] at h
      have h2 := le_maxIdL_of_occurs k cs h
      simp [maxId]
      omega
  | frag i cs =>
    by_cases hik : i = k
    · subst hik; simp [maxId]
    · simp [occursId, countP, hik] at h
      have h2 := le_maxIdL_of_occurs k cs h
      simp [maxId]
      omega

theorem le_maxIdL_of_occurs (k : Nat) (cs : List DomNode)
    (h : 1 ≤ countPL (fun n => decide (n.nid = k)) cs) : k ≤ maxIdL cs := by
  cases cs with
  | nil => simp [countPL] at h
  | cons c cs =>
    simp only [countPL] at h
    by_cases hc : 1 ≤ countP (fun n => decide (n.nid = k)) c
    · have := le_maxId_of_occurs k c hc
      simp [maxIdL]
      omega
    · have : 1 ≤ countPL (fun n => decide (n.nid = k)) cs := by omega
      have := le_maxIdL_of_occurs k cs this
      simp [maxIdL]
      omega

end

mutual

theorem occursId_eq_count (k : Nat) (t : DomNode) :
    occursId k t = (idList t).count k := by
  cases t with
  | text i s =>
    by_cases hik : i = k <;> simp [occursId, countP, idList, List.count_cons, hik]
  | elem i tg cs =>
    have := occursIdL_eq_count k cs
    by_cases hik : i = k <;>
      simp [occursId, countP, idList, List.count_cons, hik, this, occursId] at * <;> omega
  | frag i cs =>
    have := occursIdL_eq_count k cs
    by_cases hik : i = k <;>
      simp [occursId, countP, idList, List.count_cons, hik, this, occursId] at * <;> omega

theorem occursIdL_eq_count (k : Nat) (cs : List DomNode) :
    countPL (fun n => decide (n.nid = k)) cs = (idListL cs).count k := by
  cases cs with
  | nil => simp [countPL, idListL]
  | cons c cs =>
    have h1 := occursId_eq_count k c
    have h2 := occursIdL_eq_count k cs
    simp only [occursId] at h1
    simp [countPL, idListL, List.count_append, h1, h2]

end

theorem mem_idList_iff_occurs (k : Nat) (t : DomNode) :
    k ∈ idList t ↔ 1 ≤ occursId k t := by
  rw [occursId_eq_count]
  exact ⟨fun h => List.one_le_count_iff.mpr h, fun h => List.one_le_count_iff.mp h⟩

theorem occursId_of_nodup (t : DomNode) (h : (idList t).Nodup) (k : Nat) :
    occursId k t ≤ 1 := by
  rw [occursId_eq_count]
  exact List.nodup_iff_count_le_one.mp h k

mutual

theorem pathIdx_complete (t : DomNode) (p : List Nat) (m : DomNode)
    (h : nodeAt t p = some m) (hu : occursId m.nid t ≤ 1) :
    pathIdx m.nid t = some p := by
  cases p with
  | nil =>
    simp [nodeAt] at h
    subst h
    cases t <;> simp [pathIdx]
  | cons i q =>
    simp only [nodeAt] at h
    cases hc : t.childList[i]? with
    | none => rw [hc] at h; exact absurd h (by simp)
    | some c =>
      rw [hc] at h
      have hmc : 1 ≤ occursId m.nid c := by
        have := countP_le_of_nodeAt (fun n => decide (n.nid = m.nid)) c m q h
        have := occursId_self m
        simp only [occursId] at *
        omega
      have hcl : 1 ≤ countPL (fun n => decide (n.nid = m.nid)) t.childList :=
        le_trans hmc (countP_le_countPL_of_getElem _ t.childList i c hc)
      have hne : t.nid ≠ m.nid := by
        intro he
        have hgen : (if decide (t.nid = m.nid) = true then 1 else 0)
            + countPL (fun n => decide (n.nid = m.nid)) t.childList ≤ occursId m.nid t := by
          cases t <;> simp [occursId, countP]
        simp [he] at hgen
        omega
      cases t with
      | text j s => simp [DomNode.childList] at hc
      | elem j tg cs =>
        simp only [DomNode.childList] at hc hcl
        have hu2 : countPL (fun n => decide (n.nid = m.nid)) cs ≤ 1 := by
          simp only [occursId, countP] at hu
          omega
        have := pathIdxL_complete cs 0 i q m c hc h hu2
        simp only [nid_elem] at hne
        simpa [pathIdx, hne] using this
      | frag j cs =>
        simp only [DomNode.childList] at hc hcl
        have hu2 : countPL (fun n => decide (n.nid = m.nid)) cs ≤ 1 := by
          simp only [occursId, countP] at hu
          omega
        have := pathIdxL_complete cs 0 i q m c hc h hu2
        simp only [nid_frag] at hne
        simpa [pathIdx, hne] using this

theorem pathIdxL_complete (cs : List DomNode) (b i : Nat) (q : List Nat) (m c : DomNode)
    (hc : cs[i]? = some c) (h : nodeAt c q = some m)
    (hu : countPL (fun n => decide (n.nid = m.nid)) cs ≤ 1) :
    pathIdxL m.nid cs b = some ((b + i) :: q) := by
  cases cs with
  | nil => simp at hc
  | cons d ds =>
    cases i with
    | zero =>
      simp at hc
      subst hc
      have hdu : occursId m.nid d ≤ 1 := by
        simp only [countPL] at hu
        simp only [occursId]
        omega
      have := pathIdx_complete d q m h hdu
      simp [pathIdxL, this]
    | succ j =>
      simp at hc
      have hmc : 1 ≤ occursId m.nid c := by
        have := countP_le_of_nodeAt (fun n => decide (n.nid = m.nid)) c m q h
        have := occursId_self m
        simp only [occursId] at *
        omega
      have hds : 1 ≤ countPL (fun n => decide (n.nid = m.nid)) ds :=
        le_trans hmc (countP_le_countPL_of_getElem _ ds j c hc)
      have hd0 : occursId m.nid d = 0 := by
        simp only [countPL] at hu
        simp only [occursId]
        omega
      have hdn : pathIdx m.nid d = none := (pathIdx_eq_none_iff m.nid d).mpr hd0
      have hu2 : countPL (fun n => decide (n.nid = m.nid)) ds ≤ 1 := by
        simp only [countPL] at hu
        omega
      have := pathIdxL_complete ds (b + 1) j q m c hc h hu2
      rw [show b + (j + 1) = b + 1 + j from by omega]
      simpa [pathIdxL, hdn] using this

end

/-! ### Undo-coordinator invariants -/

mutual

theorem runAct_stable (a : UndoAct) (st : UndoState) (h : 1 ≤ st.depth) :
    (runAct st a).depth = st.depth ∧ (runAct st a).snapshots = st.snapshots ∧
      (runAct st a).events = st.events := by
  cases a with
  | mutate m => simp [runAct]
  | nest inner ret cs =>
    have hne : ¬ st.depth = 0 := by omega
    have := runActs_stable inner st h
    simpa [runAct, addUndoSnapshot, hne] using this

theorem runActs_stable (l : List UndoAct) (st : UndoState) (h : 1 ≤ st.depth) :
    (runActs st l).depth = st.depth ∧ (runActs st l).snapshots = st.snapshots ∧
      (runActs st l).events = st.events := by
  cases l with
  | nil => simp [runActs]
  | cons a as =>
    obtain ⟨h1, h2, h3⟩ := runAct_stable a st h
    have h4 : 1 ≤ (runAct st a).depth := by omega
    obtain ⟨h5, h6, h7⟩ := runActs_stable as (runAct st a) h4
    rw [runActs]
    exact ⟨by omega, by rw [h6, h2], by rw [h7, h3]⟩

end

/-! ### Claim theorems -/

/-- Claim C10 (confirmed): every call `setCurrentEditor(newEditor)` first
calls `dispose()` exactly once on the previously set editor (when there is
one), and afterwards `getCurrentEditor()` returns the new editor. -/
theorem C10_setCurrentEditor (st : EditorRegistry) (e : Nat) :
    getCurrentEditor (setCurrentEditor st e).1 = some e ∧
    (∀ old, st.current = some old →
      (setCurrentEditor st e).2 = [RegistryEvent.disposeOf old, RegistryEvent.installed e]) ∧
    (st.current = none → (setCurrentEditor st e).2 = [RegistryEvent.installed e]) := by
  refine ⟨rfl, ?_, ?_⟩
  · intro old hold
    simp [setCurrentEditor, hold]
  · intro hnone
    simp [setCurrentEditor, hnone]

/-- Witness for C10 at a concrete state: an editor 3 is current, editor 7 is
installed; editor 3 is disposed exactly once, then 7 installed. -/
theorem C10_setCurrentEditor_witness :
    getCurrentEditor (setCurrentEditor ⟨some 3⟩ 7).1 = some 7 ∧
    (setCurrentEditor ⟨some 3⟩ 7).2 =
      [RegistryEvent.disposeOf 3, RegistryEvent.installed 7] := by
  obtain ⟨h1, h2, _⟩ := C10_setCurrentEditor ⟨some 3⟩ 7
  exact ⟨h1, h2 3 rfl⟩

/-- Claim C5 (confirmed): an outermost `addUndoSnapshot` with a change
source — whatever nesting of `addUndoSnapshot` calls the callback performs —
emits exactly one content-changed notification, carrying the outer
callback's return value as its data, recorded against the final content
(so it fires after the callback has completed and the tree is in its final
state); the snapshots are exactly the outer before/after pair, so inner
calls capture no snapshots and emit no notification of their own. -/
theorem C5_nested_undo (st : UndoState) (callback : List UndoAct) (ret : Nat) (s : String)
    (h : st.depth = 0) :
    (addUndoSnapshot st callback ret (some s)).events =
        st.events ++ [⟨s, ret, (addUndoSnapshot st callback ret (some s)).content⟩] ∧
    (addUndoSnapshot st callback ret (some s)).snapshots =
        st.snapshots ++ [st.content, (addUndoSnapshot st callback ret (some s)).content] ∧
    (addUndoSnapshot st callback ret (some s)).depth = 0 := by
  obtain ⟨hd, hs, he⟩ :=
    runActs_stable callback (UndoState.mk 1 st.content (st.snapshots ++ [st.content]) st.events)
      (by simp)
  have key : addUndoSnapshot st callback ret (some s) =
      UndoState.mk 0
        (runActs (UndoState.mk 1 st.content (st.snapshots ++ [st.content]) st.events) callback).content
        ((runActs (UndoState.mk 1 st.content (st.snapshots ++ [st.content]) st.events) callback).snapshots
          ++ [(runActs (UndoState.mk 1 st.content (st.snapshots ++ [st.content]) st.events) callback).content])
        ((runActs (UndoState.mk 1 st.content (st.snapshots ++ [st.content]) st.events) callback).events
          ++ [⟨s, ret,
              (runActs (UndoState.mk 1 st.content (st.snapshots ++ [st.content]) st.events) callback).content⟩]) := by
    unfold addUndoSnapshot
    rw [if_pos h]
  rw [key]
  refine ⟨?_, ?_, rfl⟩
  · rw [he]
  · rw [hs]
    simp

/-- Witness for C5: a two-level nesting (outer callback mutates, re-enters
with an inner callback and its own change source, mutates again) from the
idle state emits exactly the one outer notification. -/
theorem C5_nested_undo_witness :
    (addUndoSnapshot ⟨0, [], [], []⟩
        [.mutate 1, .nest [.mutate 2, .mutate 3] 77 (some "inner"), .mutate 4]
        42 (some "Format")).events =
      [⟨"Format", 42, [1, 2, 3, 4]⟩] ∧
    (addUndoSnapshot ⟨0, [], [], []⟩
        [.mutate 1, .nest [.mutate 2, .mutate 3] 77 (some "inner"), .mutate 4]
        42 (some "Format")).snapshots = [[], [1, 2, 3, 4]] := by
  have hc : (addUndoSnapshot ⟨0, [], [], []⟩
      [.mutate 1, .nest [.mutate 2, .mutate 3] 77 (some "inner"), .mutate 4]
      42 (some "Format")).content = [1, 2, 3, 4] := by
    simp [addUndoSnapshot, runActs, runAct]
  obtain ⟨h1, h2, _⟩ := C5_nested_undo ⟨0, [], [], []⟩
    [.mutate 1, .nest [.mutate 2, .mutate 3] 77 (some "inner"), .mutate 4] 42 "Format" rfl
  rw [hc] at h1 h2
  refine ⟨?_, ?_⟩
  · rw [h1]
    rfl
  · rw [h2]
    rfl

/-- Claim C6 (confirmed): with root content `<div>hello</div>`, inserting a
text node "X" at Begin with insertOnNewLine=false places the text node
before the existing first child inside the block: `<div>Xhello</div>`. -/
theorem C6_begin_scenario :
    (insertNode ⟨.elem 0 "DIV" [.elem 1 "DIV" [.text 2 "hello"]], none, none, .noSel⟩
        (.text 5 "X") (some ⟨.begin, false, true, false⟩)).core.contentDiv =
      .elem 0 "DIV" [.elem 1 "DIV" [.text 5 "X", .text 2 "hello"]] := by
  decide

/-- Claim C1, counterexample: at a SelectionStart insertion with no live
range and no cached range, `insertNode` performs no mutation of the tree —
but it returns `true`, not `false` as the claim states (the source returns
`true` unconditionally at insertNode.ts line 49). -/
theorem C1_counterexample :
    ¬ ((insertNode ⟨.elem 0 "DIV" [.elem 1 "DIV" [.text 2 "hi"]], none, none, .noSel⟩
        (.text 5 "X") (some ⟨.selectionStart, false, true, false⟩)).ret = false) ∧
    (insertNode ⟨.elem 0 "DIV" [.elem 1 "DIV" [.text 2 "hi"]], none, none, .noSel⟩
        (.text 5 "X") (some ⟨.selectionStart, false, true, false⟩)).core.contentDiv =
      .elem 0 "DIV" [.elem 1 "DIV" [.text 2 "hi"]] := by
  decide

/-- Claim C1 as amended (the correction the counterexample forces):
`insertNode` returns `true` for every call; when the position is
SelectionStart and no range can be resolved (no live range and no cached
range — with updateCursor false, so that focus restores nothing), it
performs no mutation at all (the entire core state is unchanged) but still
returns `true`. -/
theorem C1_amended (core : EditorCore) (node : DomNode) (o? : Option InsertOption) :
    (insertNode core node o?).ret = true ∧
    ((o?.getD defaultInsertOption).position = ContentPosition.selectionStart →
      (o?.getD defaultInsertOption).updateCursor = false →
      core.liveRange = none → core.cachedRange = none →
      (insertNode core node o?).core = core) := by
  constructor
  · cases hpos : (o?.getD defaultInsertOption).position <;>
      simp [insertNode, hpos]
  · intro hpos huc hlive hcache
    simp [insertNode, hpos, huc, insertNodeAtSelection, getLiveRange, hlive, hcache]

/-- Witness for C1 as amended, at a concrete no-range SelectionStart call:
the return value is true and the state is untouched. -/
theorem C1_amended_witness :
    (insertNode ⟨.elem 0 "DIV" [], none, none, .noSel⟩ (.text 9 "w")
        (some ⟨.selectionStart, false, true, false⟩)).ret = true ∧
    (insertNode ⟨.elem 0 "DIV" [], none, none, .noSel⟩ (.text 9 "w")
        (some ⟨.selectionStart, false, true, false⟩)).core =
      ⟨.elem 0 "DIV" [], none, none, .noSel⟩ := by
  obtain ⟨h1, h2⟩ := C1_amended ⟨.elem 0 "DIV" [], none, none, .noSel⟩ (.text 9 "w")
    (some ⟨.selectionStart, false, true, false⟩)
  exact ⟨h1, h2 rfl rfl rfl rfl⟩

/-- Claim C4 (confirmed): for a SelectionStart insertion over a resolvable
live range, when updateCursor is true the selection ends up immediately
after the inserted node — after the fragment's last child when the inserted
node is a document fragment (`nodeForCursorId`) — and when updateCursor is
false the selection is restored to the clone of the pre-insertion range
(the range as it stood after the optional deleteContents, cloned before the
insertion). -/
theorem C4_cursor (core : EditorCore) (node : DomNode) (r : Rng) (uc rs ionl : Bool) (k : Nat)
    (hl : core.liveRange = some r)
    (hk : nodeForCursorId node = some k) :
    (uc = true →
      (insertNode core node (some ⟨.selectionStart, uc, rs, ionl⟩)).core.sel =
        SelState.selAfterNode k) ∧
    (uc = false →
      (insertNode core node (some ⟨.selectionStart, uc, rs, ionl⟩)).core.sel =
        SelState.selRange (selDeleteStep core.contentDiv r ⟨.selectionStart, uc, rs, ionl⟩).2) := by
  constructor
  · intro huc
    subst huc
    simp [insertNode, focus, hl, insertNodeAtSelection, getLiveRange, hk]
  · intro huc
    subst huc
    simp [insertNode, focus, hl, insertNodeAtSelection, getLiveRange, hk]

/-- Witness for C4: inserting a two-child fragment over a collapsed live
range with updateCursor true puts the cursor after the fragment's last
child; with updateCursor false the cloned range is restored. -/
theorem C4_cursor_witness :
    (insertNode ⟨.elem 0 "DIV" [.elem 1 "DIV" [.text 2 "a"]], some ⟨2, 1, 2, 1⟩, none, .noSel⟩
        (.frag 20 [.text 21 "u", .text 22 "v"])
        (some ⟨.selectionStart, true, true, false⟩)).core.sel = SelState.selAfterNode 22 ∧
    (insertNode ⟨.elem 0 "DIV" [.elem 1 "DIV" [.text 2 "a"]], some ⟨2, 1, 2, 1⟩, none, .noSel⟩
        (.frag 20 [.text 21 "u", .text 22 "v"])
        (some ⟨.selectionStart, false, true, false⟩)).core.sel =
      SelState.selRange ⟨2, 1, 2, 1⟩ := by
  constructor
  · exact (C4_cursor ⟨.elem 0 "DIV" [.elem 1 "DIV" [.text 2 "a"]], some ⟨2, 1, 2, 1⟩, none, .noSel⟩
      (.frag 20 [.text 21 "u", .text 22 "v"]) ⟨2, 1, 2, 1⟩ true true false 22 rfl rfl).1 rfl
  · have := (C4_cursor ⟨.elem 0 "DIV" [.elem 1 "DIV" [.text 2 "a"]], some ⟨2, 1, 2, 1⟩, none, .noSel⟩
      (.frag 20 [.text 21 "u", .text 22 "v"]) ⟨2, 1, 2, 1⟩ false true false 22 rfl rfl).2 rfl
    rw [this]
    rfl

theorem contentDiv_focus (c : EditorCore) : (focus c).contentDiv = c.contentDiv := by
  unfold focus
  cases c.liveRange with
  | some r => rfl
  | none => cases c.cachedRange <;> rfl

theorem pathIdx_self (n : DomNode) : pathIdx n.nid n = some [] := by
  cases n <;> simp [pathIdx]

theorem nid_mem_idList (n : DomNode) : n.nid ∈ idList n := by
  rw [mem_idList_iff_occurs]
  exact occursId_self n

/-- Claim C9 (confirmed): a Begin or End insertion into an empty root (a
root with no children, hence no block element) appends the node as a child
of the root rather than failing: the node — or, when insertOnNewLine was
requested for a non-block node, its wrapping DIV — becomes the root's sole
child. -/
theorem C9_append_empty_root (rid : Nat) (tg : String) (node : DomNode)
    (lr cr : Option Rng) (sel : SelState) (pos : ContentPosition) (uc rs ionl : Bool)
    (hpos : pos = ContentPosition.begin ∨ pos = ContentPosition.atEnd)
    (hfrag : node.isFrag = false)
    (hfresh : rid ∉ idList node) :
    ((ionl && !isBlockElement node) = false →
      (insertNode ⟨.elem rid tg [], lr, cr, sel⟩ node (some ⟨pos, uc, rs, ionl⟩)).core.contentDiv
        = .elem rid tg [node]) ∧
    ((ionl && !isBlockElement node) = true →
      (insertNode ⟨.elem rid tg [], lr, cr, sel⟩ node (some ⟨pos, uc, rs, ionl⟩)).core.contentDiv
        = .elem rid tg [.elem (max rid (maxId node) + 1) "DIV" [node]]) := by
  have hno : nodesOf node = [node] := by
    cases node <;> simp [nodesOf, DomNode.isFrag] at hfrag ⊢
  have hne : ¬ rid = node.nid := by
    intro he
    exact hfresh (he ▸ nid_mem_idList node)
  have hpx : pathIdx node.nid (DomNode.elem rid tg [node]) = some [0] := by
    simp [pathIdx, hne, pathIdxL, pathIdx_self]
  have hparent : parentIndexOf (DomNode.elem rid tg [node]) node.nid = some ([], 0) := by
    simp [parentIndexOf, hpx]
  have hwrap : wrapInDiv (DomNode.elem rid tg [node]) node.nid =
      DomNode.elem rid tg [.elem (max rid (maxId node) + 1) "DIV" [node]] := by
    simp [wrapInDiv, hparent, modifyAtPath, modAt, maxId, maxIdL]
  have hinsB : insertNodeAtBegin (.elem rid tg []) node ⟨pos, uc, rs, ionl⟩ =
      wrapFinal (.elem rid tg [node]) node ⟨pos, uc, rs, ionl⟩ := by
    simp [insertNodeAtBegin, getFirstLeafNode, getBlockElementAtNode,
      editChildrenAt, pathIdx, modifyAtPath, hno]
  have hinsE : insertNodeAtEnd (.elem rid tg []) node ⟨pos, uc, rs, ionl⟩ =
      wrapFinal (.elem rid tg [node]) node ⟨pos, uc, rs, ionl⟩ := by
    simp [insertNodeAtEnd, getLastLeafNode, getBlockElementAtNode,
      editChildrenAt, pathIdx, modifyAtPath, hno]
  have hcd : ((if uc then focus ⟨.elem rid tg [], lr, cr, sel⟩
      else ⟨.elem rid tg [], lr, cr, sel⟩) : EditorCore).contentDiv = .elem rid tg [] := by
    cases uc
    · rfl
    · simp [contentDiv_focus]
  constructor
  · intro hcond
    rcases hpos with hp | hp <;> subst hp
    · simp only [insertNode, Option.getD]
      rw [hcd, hinsB]
      simp [wrapFinal, hcond]
    · simp only [insertNode, Option.getD]
      rw [hcd, hinsE]
      simp [wrapFinal, hcond]
  · intro hcond
    rcases hpos with hp | hp <;> subst hp
    · simp only [insertNode, Option.getD]
      rw [hcd, hinsB]
      simp [wrapFinal, hcond, hwrap]
    · simp only [insertNode, Option.getD]
      rw [hcd, hinsE]
      simp [wrapFinal, hcond, hwrap]

/-- Witness for C9: inserting a text node into the empty root at Begin with
insertOnNewLine makes its DIV wrapper the root's sole child. -/
theorem C9_append_empty_root_witness :
    (insertNode ⟨.elem 0 "DIV" [], none, none, .noSel⟩ (.text 5 "X")
        (some ⟨.begin, false, true, true⟩)).core.contentDiv
      = .elem 0 "DIV" [.elem 6 "DIV" [.text 5 "X"]] := by
  have h := (C9_append_empty_root 0 "DIV" (.text 5 "X") none none .noSel
    ContentPosition.begin false true true (Or.inl rfl) rfl (by decide)).2 rfl
  simpa using h

/-- Claim C7 (confirmed): with the root's last block `<div>hello</div>`,
inserting a non-block node at End with insertOnNewLine=true yields two
sibling block-level children in document order: the original
`<div>hello</div>` followed by a new DIV block wrapping the inserted
content. -/
theorem C7_end_newline (node : DomNode) (lr cr : Option Rng) (sel : SelState) (uc rs : Bool)
    (hfrag : node.isFrag = false)
    (hblock : isBlockElement node = false)
    (hfresh : ∀ k ∈ idList node,
      k ∉ idList (.elem 0 "DIV" [.elem 1 "DIV" [.text 2 "hello"]])) :
    ∃ w, (insertNode ⟨.elem 0 "DIV" [.elem 1 "DIV" [.text 2 "hello"]], lr, cr, sel⟩ node
        (some ⟨.atEnd, uc, rs, true⟩)).core.contentDiv
      = .elem 0 "DIV" [.elem 1 "DIV" [.text 2 "hello"], .elem w "DIV" [node]] := by
  have hno : nodesOf node = [node] := by
    cases node <;> simp [nodesOf, DomNode.isFrag] at hfrag ⊢
  have hmem := hfresh node.nid (nid_mem_idList node)
  rw [show idList (.elem 0 "DIV" [.elem 1 "DIV" [.text 2 "hello"]]) = [0, 1, 2] from rfl] at hmem
  simp only [List.mem_cons, List.mem_singleton, not_or] at hmem
  have h0 : ¬ ((0 : Nat) = node.nid) := fun h => hmem.1 h.symm
  have h1 : ¬ ((1 : Nat) = node.nid) := fun h => hmem.2.1 h.symm
  have h2 : ¬ ((2 : Nat) = node.nid) := fun h => hmem.2.2.1 h.symm
  have hcd : ((if uc then focus ⟨.elem 0 "DIV" [.elem 1 "DIV" [.text 2 "hello"]], lr, cr, sel⟩
      else ⟨.elem 0 "DIV" [.elem 1 "DIV" [.text 2 "hello"]], lr, cr, sel⟩) : EditorCore).contentDiv
      = .elem 0 "DIV" [.elem 1 "DIV" [.text 2 "hello"]] := by
    cases uc
    · rfl
    · simp [contentDiv_focus]
  have hstep : insertNodeAtEnd (.elem 0 "DIV" [.elem 1 "DIV" [.text 2 "hello"]]) node
      ⟨.atEnd, uc, rs, true⟩ =
      wrapFinal (.elem 0 "DIV" [.elem 1 "DIV" [.text 2 "hello"], node]) node
        ⟨.atEnd, uc, rs, true⟩ := by
    simp [insertNodeAtEnd, getLastLeafNode, descLast, descLastL, getBlockElementAtNode,
      pathIdx, pathIdxL, blockOnPath, isBlockElement, blockTags, insertInParentAfter,
      parentIndexOf, modifyAtPath, insListAt, hno]
  have hpx : pathIdx node.nid (.elem 0 "DIV" [.elem 1 "DIV" [.text 2 "hello"], node])
      = some [1] := by
    simp [pathIdx, pathIdxL, h0, h1, h2, pathIdx_self]
  have hwrap : wrapInDiv (.elem 0 "DIV" [.elem 1 "DIV" [.text 2 "hello"], node]) node.nid
      = .elem 0 "DIV" [.elem 1 "DIV" [.text 2 "hello"],
          .elem (maxId (DomNode.elem 0 "DIV" [.elem 1 "DIV" [.text 2 "hello"], node]) + 1)
            "DIV" [node]] := by
    simp [wrapInDiv, parentIndexOf, hpx, modifyAtPath, modAt]
  refine ⟨maxId (DomNode.elem 0 "DIV" [.elem 1 "DIV" [.text 2 "hello"], node]) + 1, ?_⟩
  simp only [insertNode, Option.getD]
  rw [hcd, hstep]
  simp only [wrapFinal, hblock]
  simp only [Bool.not_false, Bool.and_self, if_true]
  rw [hwrap]

/-- Witness for C7 at a concrete inserted text node. -/
theorem C7_end_newline_witness :
    ∃ w, (insertNode ⟨.elem 0 "DIV" [.elem 1 "DIV" [.text 2 "hello"]], none, none, .noSel⟩
        (.text 5 "X") (some ⟨.atEnd, false, true, true⟩)).core.contentDiv
      = .elem 0 "DIV" [.elem 1 "DIV" [.text 2 "hello"], .elem w "DIV" [.text 5 "X"]] :=
  C7_end_newline (.text 5 "X") none none .noSel false true rfl rfl (by decide)

theorem countP_le_of_mem (P : DomNode → Bool) (cs : List DomNode) (c : DomNode)
    (h : c ∈ cs) : countP P c ≤ countPL P cs := by
  induction cs with
  | nil => simp at h
  | cons d ds ih =>
    rcases List.mem_cons.mp h with h | h
    · subst h
      simp only [countPL_cons]
      omega
    · have := ih h
      simp only [countPL_cons]
      omega

mutual

theorem descFirst_occurs (n : DomNode) : 1 ≤ occursId (descFirst n).1 n := by
  cases n with
  | text i s => simp [descFirst, occursId, countP]
  | elem i tg cs =>
    cases cs with
    | nil => simp [descFirst, descFirstL, occursId, countP]
    | cons c cs' =>
      have h := descFirst_occurs c
      simp only [descFirst, descFirstL, occursId, countP] at h ⊢
      have : countP (fun m => decide (m.nid = (descFirst c).1)) c ≤
          countPL (fun m => decide (m.nid = (descFirst c).1)) (c :: cs') := by
        simp only [countPL_cons]
        omega
      omega
  | frag i cs =>
    cases cs with
    | nil => simp [descFirst, descFirstL, occursId, countP]
    | cons c cs' =>
      have h := descFirst_occurs c
      simp only [descFirst, descFirstL, occursId, countP] at h ⊢
      have : countP (fun m => decide (m.nid = (descFirst c).1)) c ≤
          countPL (fun m => decide (m.nid = (descFirst c).1)) (c :: cs') := by
        simp only [countPL_cons]
        omega
      omega

end

mutual

theorem descLast_occurs (n : DomNode) : 1 ≤ occursId (descLast n).1 n := by
  cases n with
  | text i s => simp [descLast, occursId, countP]
  | elem i tg cs =>
    cases hcs : cs with
    | nil => simp [descLast, descLastL, occursId, countP]
    | cons c cs' =>
      have h := descLastL_occurs i (c :: cs') (by simp)
      simp only [descLast, occursId, countP] at h ⊢
      omega
  | frag i cs =>
    cases hcs : cs with
    | nil => simp [descLast, descLastL, occursId, countP]
    | cons c cs' =>
      have h := descLastL_occurs i (c :: cs') (by simp)
      simp only [descLast, occursId, countP] at h ⊢
      omega

theorem descLastL_occurs (self : Nat) (cs : List DomNode) (h : cs ≠ []) :
    1 ≤ countPL (fun m => decide (m.nid = (descLastL self cs).1)) cs := by
  cases cs with
  | nil => exact absurd rfl h
  | cons c cs' =>
    cases cs' with
    | nil =>
      have := descLast_occurs c
      simp only [descLastL, occursId] at this ⊢
      simp
      omega
    | cons c2 cs'' =>
      have := descLastL_occurs self (c2 :: cs'') (by simp)
      simp only [descLastL] at this ⊢
      simp at this ⊢
      omega

end

theorem findNode_spec (t : DomNode) (k : Nat) (n : DomNode) (h : findNode t k = some n) :
    ∃ p, pathIdx k t = some p ∧ nodeAt t p = some n ∧ n.nid = k := by
  unfold findNode at h
  cases hp : pathIdx k t with
  | none =>
    rw [hp] at h
    exact Option.noConfusion h
  | some p =>
    rw [hp] at h
    have h2 : nodeAt t p = some n := h
    obtain ⟨m, hm, hk⟩ := pathIdx_sound k t p hp
    rw [hm] at h2
    obtain rfl := Option.some.inj h2
    exact ⟨p, rfl, hm, hk⟩

theorem mem_of_getLast?_eq (l : List DomNode) (a : DomNode) (h : l.getLast? = some a) :
    a ∈ l := by
  have hmem : a ∈ l.getLast? := by
    rw [Option.mem_def]
    exact h
  obtain ⟨hne, heq⟩ := List.mem_getLast?_eq_getLast hmem
  rw [heq]
  exact List.getLast_mem hne

theorem normalizePos_occurs (t : DomNode) (cid off : Nat) (h : 1 ≤ occursId cid t) :
    1 ≤ occursId (normalizePos t cid off).1 t := by
  unfold normalizePos
  cases hf : findNode t cid with
  | none => simpa using h
  | some n =>
    obtain ⟨p, hp, hn, hk⟩ := findNode_spec t cid n hf
    have hsub : ∀ d : DomNode, d ∈ n.childList → 1 ≤ occursId (descFirst d).1 t ∧
        1 ≤ occursId (descLast d).1 t := by
      intro d hd
      constructor
      · have h1 := descFirst_occurs d
        have h2 := countP_le_of_mem (fun m => decide (m.nid = (descFirst d).1)) n.childList d hd
        have h3 := countPL_childList_le (fun m => decide (m.nid = (descFirst d).1)) n
        have h4 := countP_le_of_nodeAt (fun m => decide (m.nid = (descFirst d).1)) t n p hn
        simp only [occursId] at *
        omega
      · have h1 := descLast_occurs d
        have h2 := countP_le_of_mem (fun m => decide (m.nid = (descLast d).1)) n.childList d hd
        have h3 := countPL_childList_le (fun m => decide (m.nid = (descLast d).1)) n
        have h4 := countP_le_of_nodeAt (fun m => decide (m.nid = (descLast d).1)) t n p hn
        simp only [occursId] at *
        omega
    cases n with
    | text i s => simpa using h
    | elem i tg cs =>
      cases cs with
      | nil => simpa using h
      | cons c cs' =>
        simp only [normChild]
        cases hoff : (c :: cs')[off]? with
        | some d =>
          exact (hsub d (by
            have := List.getElem?_mem hoff
            simpa using this)).1
        | none =>
          cases hlast : (c :: cs').getLast? with
          | some l =>
            exact (hsub l (by
              have := mem_of_getLast?_eq _ _ hlast
              simpa using this)).2
          | none => simp [List.getLast?] at hlast
    | frag i cs =>
      cases cs with
      | nil => simpa using h
      | cons c cs' =>
        simp only [normChild]
        cases hoff : (c :: cs')[off]? with
        | some d =>
          exact (hsub d (by
            have := List.getElem?_mem hoff
            simpa using this)).1
        | none =>
          cases hlast : (c :: cs').getLast? with
          | some l =>
            exact (hsub l (by
              have := mem_of_getLast?_eq _ _ hlast
              simpa using this)).2
          | none => simp [List.getLast?] at hlast

/-- Splicing a node whose identities avoid `k` contributes no `k`. -/
theorem countPL_nodesOf_zero (n : DomNode) (k : Nat) (h : k ∉ idList n) :
    countPL (fun m => decide (m.nid = k)) (nodesOf n) = 0 := by
  have h0 : occursId k n = 0 := by
    by_contra hne
    exact h ((mem_idList_iff_occurs k n).mpr (by omega))
  cases n with
  | text i s => simpa [nodesOf, occursId] using h0
  | elem i tg cs => simpa [nodesOf, occursId] using h0
  | frag i cs =>
    simp only [occursId, countP] at h0
    simp only [nodesOf]
    omega

theorem occurs_of_nodeAt (t m : DomNode) (p : List Nat) (h : nodeAt t p = some m) :
    1 ≤ occursId m.nid t := by
  have h1 := countP_le_of_nodeAt (fun x => decide (x.nid = m.nid)) t m p h
  have h2 := occursId_self m
  simp only [occursId] at *
  omega

theorem countPL_decomp (P : DomNode → Bool) (cs : List DomNode) (i : Nat) (c : DomNode)
    (h : cs[i]? = some c) :
    countPL P cs = countPL P (cs.take i) + countP P c + countPL P (cs.drop (i + 1)) := by
  induction cs generalizing i with
  | nil => simp at h
  | cons d ds ih =>
    cases i with
    | zero =>
      simp at h
      subst h
      simp
    | succ j =>
      simp at h
      have := ih j h
      simp only [List.take_succ_cons, List.drop_succ_cons, countPL_cons]
      omega

theorem countPL_insListAt (P : DomNode → Bool) (cs : List DomNode) (i : Nat)
    (new : List DomNode) :
    countPL P (insListAt cs i new) = countPL P cs + countPL P new := by
  unfold insListAt
  rw [countPL_append, countPL_append]
  conv_rhs => rw [← List.take_append_drop i cs]
  rw [countPL_append]
  omega

theorem countP_withChildList (P : DomNode → Bool)
    (hP : ∀ n cs, P (n.withChildList cs) = P n)
    (n : DomNode) (cs : List DomNode) (hnt : isTextNode n = false) :
    countP P (n.withChildList cs) = (if P n then 1 else 0) + countPL P cs := by
  cases n with
  | text i s => simp [isTextNode] at hnt
  | elem i tg l =>
    have := hP (DomNode.elem i tg l) cs
    simp only [DomNode.withChildList] at this ⊢
    simp [countP, this]
  | frag i l =>
    have := hP (DomNode.frag i l) cs
    simp only [DomNode.withChildList] at this ⊢
    simp [countP, this]

theorem isTextNode_false_of_child (n : DomNode) (i : Nat) (c : DomNode)
    (h : n.childList[i]? = some c) : isTextNode n = false := by
  cases n with
  | text j s => simp at h
  | elem j tg l => rfl
  | frag j l => rfl

/-- `Range.insertNode` never introduces an identity that is absent from the
tree, bounded by its maximum identity, and absent from the inserted node:
the only identities it adds are those of the inserted content and the
freshly allocated split-text node. -/
theorem occursId_insertNodeIntoRange_zero (t : DomNode) (r : Rng) (n : DomNode) (k : Nat)
    (h0 : occursId k t = 0) (hn : k ∉ idList n) (hm : k ≤ maxId t) :
    occursId k (insertNodeIntoRange t r n) = 0 := by
  have hPid : ∀ (x : DomNode) (cs : List DomNode),
      (fun m => decide (m.nid = k)) (x.withChildList cs) = (fun m => decide (m.nid = k)) x := by
    intro x cs
    simp [nid_withChildList]
  have hnodes := countPL_nodesOf_zero n k hn
  cases hp : pathIdx r.sc t with
  | none =>
    unfold insertNodeIntoRange
    simp only [hp]
    exact h0
  | some p =>
    cases hd : nodeAt t p with
    | none =>
      unfold insertNodeIntoRange
      simp only [hp, hd]
      exact h0
    | some m =>
      cases m with
      | text i s =>
        cases hl : p.getLast? with
        | none =>
          unfold insertNodeIntoRange
          simp only [hp, hd, hl]
          exact h0
        | some idx =>
          have hne : p ≠ [] := by
            intro he
            rw [he] at hl
            simp at hl
          have hg := List.getLast?_eq_getLast_of_ne_nil hne
          rw [hl] at hg
          have hps : p.dropLast ++ [idx] = p := by
            have := List.dropLast_append_getLast hne
            rw [← Option.some.inj hg] at this
            exact this
          have hd2 : nodeAt t (p.dropLast ++ [idx]) = some (.text i s) := by
            rw [hps]
            exact hd
          rw [nodeAt_append_last] at hd2
          cases hq : nodeAt t p.dropLast with
          | none => rw [hq] at hd2; exact absurd hd2 (by simp)
          | some parent =>
            simp only [hq] at hd2
            cases hcc : parent.childList[idx]? with
            | none =>
              simp only [hcc] at hd2
              exact absurd hd2 (by simp)
            | some c0 =>
              simp only [hcc] at hd2
              obtain rfl : c0 = DomNode.text i s := Option.some.inj hd2
              unfold insertNodeIntoRange
              simp only [hp, hd, hl]
              have hcount := countP_modifyAtPath (fun m => decide (m.nid = k)) hPid
                p.dropLast t parent
                (fun nn => nn.withChildList
                  (nn.childList.take idx ++ [DomNode.text i (s.take r.so)] ++ nodesOf n
                    ++ [DomNode.text (maxId t + 1) (s.drop r.so)]
                    ++ nn.childList.drop (idx + 1))) hq
              have hwc := countP_withChildList (fun m => decide (m.nid = k)) hPid parent
                (parent.childList.take idx ++ [DomNode.text i (s.take r.so)] ++ nodesOf n
                  ++ [DomNode.text (maxId t + 1) (s.drop r.so)]
                  ++ parent.childList.drop (idx + 1))
                (isTextNode_false_of_child parent idx _ hcc)
              have hdec := countPL_decomp (fun m => decide (m.nid = k))
                parent.childList idx _ hcc
              have hfresh : ¬ (maxId t + 1 = k) := by omega
              have hold : countP (fun m => decide (m.nid = k)) parent ≤ occursId k t :=
                countP_le_of_nodeAt _ t parent p.dropLast hq
              rw [hwc] at hcount
              have hpar := countP_decompose (fun m => decide (m.nid = k)) parent
              simp only [occursId] at h0 hold ⊢
              simp only [countPL_append, countPL_cons, countPL_nil, countP]
                at hcount hdec hpar ⊢
              simp [hfresh, hnodes] at hcount hdec hpar ⊢
              omega
      | elem i tg cs =>
        unfold insertNodeIntoRange
        simp only [hp, hd]
        have hcount := countP_modifyAtPath (fun m => decide (m.nid = k)) hPid p t
          (DomNode.elem i tg cs)
          (fun mm => mm.withChildList (insListAt mm.childList r.so (nodesOf n))) hd
        have hwc := countP_withChildList (fun m => decide (m.nid = k)) hPid
          (DomNode.elem i tg cs) (insListAt (DomNode.elem i tg cs).childList r.so (nodesOf n))
          rfl
        have hins := countPL_insListAt (fun m => decide (m.nid = k))
          (DomNode.elem i tg cs).childList r.so (nodesOf n)
        have hold : countP (fun m => decide (m.nid = k)) (DomNode.elem i tg cs) ≤ occursId k t :=
          countP_le_of_nodeAt _ t _ p hd
        rw [hwc, hins, hnodes] at hcount
        simp only [occursId] at h0 hold ⊢
        simp only [countP, childList_elem] at hcount hold ⊢
        omega
      | frag i cs =>
        unfold insertNodeIntoRange
        simp only [hp, hd]
        have hcount := countP_modifyAtPath (fun m => decide (m.nid = k)) hPid p t
          (DomNode.frag i cs)
          (fun mm => mm.withChildList (insListAt mm.childList r.so (nodesOf n))) hd
        have hwc := countP_withChildList (fun m => decide (m.nid = k)) hPid
          (DomNode.frag i cs) (insListAt (DomNode.frag i cs).childList r.so (nodesOf n))
          rfl
        have hins := countPL_insListAt (fun m => decide (m.nid = k))
          (DomNode.frag i cs).childList r.so (nodesOf n)
        have hold : countP (fun m => decide (m.nid = k)) (DomNode.frag i cs) ≤ occursId k t :=
          countP_le_of_nodeAt _ t _ p hd
        rw [hwc, hins, hnodes] at hcount
        simp only [occursId] at h0 hold ⊢
        simp only [countP, childList_frag] at hcount hold ⊢
        omega

/-- Claim C2, counterexample: root `<div><p></p></div>`, collapsed selection
inside the empty P (container 1, offset 0), SelectionStart insertion with
insertOnNewLine=false.  The block's end node is the P and it is retyped to a
DIV (identity 2) — but the previously computed (normalized) range boundary
is the P itself, so after the retype it is no longer contained in the root,
the guard fails, no remapping happens, and the browser-adjusted raw range
points at the root before the new DIV: the insertion range actually used is
(0,0), not the cached (1,0), and the node lands outside the retyped
container as the root's first child. -/
theorem C2_counterexample :
    getTagOfNode ((findNode (.elem 0 "DIV" [.elem 1 "P" []]) 1).getD (.text 0 "")) = "P" ∧
    getBlockElementAtNode (.elem 0 "DIV" [.elem 1 "P" []]) (some 1) = some 1 ∧
    normalizeRng (.elem 0 "DIV" [.elem 1 "P" []]) ⟨1, 0, 1, 0⟩ = ⟨1, 0, 1, 0⟩ ∧
    (insertNode ⟨.elem 0 "DIV" [.elem 1 "P" []], some ⟨1, 0, 1, 0⟩, none, .noSel⟩ (.text 5 "X")
        (some ⟨.selectionStart, false, false, false⟩)).used = some ⟨0, 0, 0, 0⟩ ∧
    ¬ ((insertNode ⟨.elem 0 "DIV" [.elem 1 "P" []], some ⟨1, 0, 1, 0⟩, none, .noSel⟩
        (.text 5 "X") (some ⟨.selectionStart, false, false, false⟩)).used =
      some (normalizeRng (.elem 0 "DIV" [.elem 1 "P" []]) ⟨1, 0, 1, 0⟩)) ∧
    (insertNode ⟨.elem 0 "DIV" [.elem 1 "P" []], some ⟨1, 0, 1, 0⟩, none, .noSel⟩ (.text 5 "X")
        (some ⟨.selectionStart, false, false, false⟩)).core.contentDiv =
      .elem 0 "DIV" [.text 5 "X", .elem 2 "DIV" []] := by
  decide

/-- Claim C2 as amended (the correction the counterexample forces): for a
SelectionStart insertion with insertOnNewLine=false whose containing
block's end node is a P element, the container is retyped to a DIV (same
children, fresh identity, the P gone from the tree) before inserting; and
the previously computed normalized range boundaries are remapped onto the
new container exactly when both normalized boundary nodes are still
contained in the root after the retype (they always differ from the freshly
created DIV) — in that case the insertion uses precisely the normalized
pre-retype boundaries. -/
theorem C2_amended (t : DomNode) (r : Rng) (node : DomNode) (cr : Option Rng) (sel : SelState)
    (uc rs : Bool) (bId : Nat) (p : List Nat) (pc : List DomNode)
    (hdel : (rs && !r.collapsed) = false)
    (hB : getBlockElementAtNode t (some r.sc) = some bId)
    (hpx : pathIdx bId t = some p)
    (hP : nodeAt t p = some (.elem bId "P" pc))
    (hEc : 1 ≤ occursId r.ec t)
    (hG1 : containsNode (changeElementTag t bId "DIV").1 (normalizeRng t r).sc = true)
    (hG2 : containsNode (changeElementTag t bId "DIV").1 (normalizeRng t r).ec = true)
    (hNodup : (idList t).Nodup)
    (hbn : bId ∉ idList node) :
    (insertNode ⟨t, some r, cr, sel⟩ node (some ⟨.selectionStart, uc, rs, false⟩)).used =
      some (normalizeRng t r) ∧
    (insertNode ⟨t, some r, cr, sel⟩ node
        (some ⟨.selectionStart, uc, rs, false⟩)).core.contentDiv =
      insertNodeIntoRange (changeElementTag t bId "DIV").1 (normalizeRng t r) node ∧
    nodeAt (changeElementTag t bId "DIV").1 p = some (.elem (maxId t + 1) "DIV" pc) ∧
    occursId bId (insertNode ⟨t, some r, cr, sel⟩ node
        (some ⟨.selectionStart, uc, rs, false⟩)).core.contentDiv = 0 := by
  have hfind : findNode t bId = some (.elem bId "P" pc) := by
    unfold findNode
    rw [hpx]
    exact hP
  have hret : changeElementTag t bId "DIV" =
      (modifyAtPath t p (fun n => .elem (maxId t + 1) "DIV" n.childList), maxId t + 1) := by
    unfold changeElementTag
    rw [hpx]
  have hsc1 : 1 ≤ occursId r.sc t := by
    by_contra hcon
    have h0 : occursId r.sc t = 0 := by omega
    have hnone := (pathIdx_eq_none_iff r.sc t).mpr h0
    unfold getBlockElementAtNode at hB
    simp [hnone] at hB
  have hscle : (normalizeRng t r).sc ≤ maxId t := by
    have := normalizePos_occurs t r.sc r.so hsc1
    have := le_maxId_of_occurs _ t this
    simpa [normalizeRng] using this
  have hecle : (normalizeRng t r).ec ≤ maxId t := by
    have := normalizePos_occurs t r.ec r.eo hEc
    have := le_maxId_of_occurs _ t this
    simpa [normalizeRng] using this
  have hne1 : (normalizeRng t r).sc ≠ (changeElementTag t bId "DIV").2 := by
    rw [hret]
    show (normalizeRng t r).sc ≠ maxId t + 1
    omega
  have hne2 : (normalizeRng t r).ec ≠ (changeElementTag t bId "DIV").2 := by
    rw [hret]
    show (normalizeRng t r).ec ≠ maxId t + 1
    omega
  have hds : selDeleteStep t r ⟨.selectionStart, uc, rs, false⟩ = (t, r) := by
    unfold selDeleteStep
    simp [hdel]
  have hadj : selAdjustStep t r ⟨.selectionStart, uc, rs, false⟩ =
      ((changeElementTag t bId "DIV").1, normalizeRng t r) := by
    unfold selAdjustStep
    simp only [hB, hfind, Option.getD_some]
    rw [if_neg (by simp)]
    rw [if_pos (show getTagOfNode (.elem bId "P" pc) = "P" from rfl)]
    rw [if_pos ⟨hne1, hne2, hG1, hG2⟩]
  have hsel1 : (insertNodeAtSelection ⟨t, some r, cr, sel⟩ node
      ⟨.selectionStart, uc, rs, false⟩).2 = some (normalizeRng t r) := by
    unfold insertNodeAtSelection
    simp only [getLiveRange, hds, hadj]
  have hsel2 : (insertNodeAtSelection ⟨t, some r, cr, sel⟩ node
      ⟨.selectionStart, uc, rs, false⟩).1.contentDiv =
      insertNodeIntoRange (changeElementTag t bId "DIV").1 (normalizeRng t r) node := by
    unfold insertNodeAtSelection
    simp only [getLiveRange, hds, hadj]
  have hcore1 : (if uc then focus ⟨t, some r, cr, sel⟩ else ⟨t, some r, cr, sel⟩) =
      (⟨t, some r, cr, sel⟩ : EditorCore) := by
    cases uc <;> rfl
  have hused : (insertNode ⟨t, some r, cr, sel⟩ node
      (some ⟨.selectionStart, uc, rs, false⟩)).used = some (normalizeRng t r) := by
    have hdef : (insertNode ⟨t, some r, cr, sel⟩ node
        (some ⟨.selectionStart, uc, rs, false⟩)).used =
        (insertNodeAtSelection
          (if uc then focus ⟨t, some r, cr, sel⟩ else ⟨t, some r, cr, sel⟩) node
          ⟨.selectionStart, uc, rs, false⟩).2 := rfl
    rw [hdef, hcore1]
    exact hsel1
  have hcd : (insertNode ⟨t, some r, cr, sel⟩ node
      (some ⟨.selectionStart, uc, rs, false⟩)).core.contentDiv =
      insertNodeIntoRange (changeElementTag t bId "DIV").1 (normalizeRng t r) node := by
    have hdef : (insertNode ⟨t, some r, cr, sel⟩ node
        (some ⟨.selectionStart, uc, rs, false⟩)).core.contentDiv =
        (insertNodeAtSelection
          (if uc then focus ⟨t, some r, cr, sel⟩ else ⟨t, some r, cr, sel⟩) node
          ⟨.selectionStart, uc, rs, false⟩).1.contentDiv := rfl
    rw [hdef, hcore1]
    exact hsel2
  have hnew : nodeAt (changeElementTag t bId "DIV").1 p =
      some (.elem (maxId t + 1) "DIV" pc) := by
    rw [hret]
    have := nodeAt_modifyAtPath p t (.elem bId "P" pc)
      (fun n => .elem (maxId t + 1) "DIV" n.childList) hP
    simpa using this
  have hocc1 : occursId bId t = 1 := by
    have hle := occursId_of_nodup t hNodup bId
    have hge : 1 ≤ occursId bId t := by
      by_contra hcon
      have h0 : occursId bId t = 0 := by omega
      have := (pathIdx_eq_none_iff bId t).mpr h0
      rw [this] at hpx
      exact Option.noConfusion hpx
    omega
  have hzero : occursId bId (changeElementTag t bId "DIV").1 = 0 := by
    have hPid : ∀ (x : DomNode) (cs : List DomNode),
        (fun m => decide (m.nid = bId)) (x.withChildList cs) =
          (fun m => decide (m.nid = bId)) x := by
      intro x cs
      simp [nid_withChildList]
    have hcount := countP_modifyAtPath (fun m => decide (m.nid = bId)) hPid p t
      (.elem bId "P" pc) (fun n => .elem (maxId t + 1) "DIV" n.childList) hP
    have hfr : ¬ (maxId t + 1 = bId) := by
      have : bId ≤ maxId t := le_maxId_of_occurs bId t (by omega)
      omega
    rw [hret]
    show occursId bId (modifyAtPath t p fun n => DomNode.elem (maxId t + 1) "DIV" n.childList) = 0
    simp only [occursId] at hocc1 hcount ⊢
    simp [countP, hfr] at hcount
    omega
  have hmax2 : maxId t + 1 ≤ maxId (changeElementTag t bId "DIV").1 := by
    have h1 := occurs_of_nodeAt (changeElementTag t bId "DIV").1
      (.elem (maxId t + 1) "DIV" pc) p hnew
    have := le_maxId_of_occurs (maxId t + 1) (changeElementTag t bId "DIV").1 (by simpa using h1)
    exact this
  refine ⟨hused, hcd, hnew, ?_⟩
  rw [hcd]
  have hbmax : bId ≤ maxId t := le_maxId_of_occurs bId t (by omega)
  exact occursId_insertNodeIntoRange_zero (changeElementTag t bId "DIV").1
    (normalizeRng t r) node bId hzero hbn (by omega)

/-- Witness for C2 as amended: `<div><p>hi</p></div>`, collapsed cursor in
the text "hi" at offset 1 — the P (identity 1) is retyped to a DIV
(identity 3) keeping the text child, the insertion uses the preserved
normalized boundary (2,1), and the old P is gone from the final tree. -/
theorem C2_amended_witness :
    (insertNode ⟨.elem 0 "DIV" [.elem 1 "P" [.text 2 "hi"]], some ⟨2, 1, 2, 1⟩, none, .noSel⟩
        (.text 5 "X") (some ⟨.selectionStart, false, false, false⟩)).used =
      some (normalizeRng (.elem 0 "DIV" [.elem 1 "P" [.text 2 "hi"]]) ⟨2, 1, 2, 1⟩) ∧
    nodeAt (changeElementTag (.elem 0 "DIV" [.elem 1 "P" [.text 2 "hi"]]) 1 "DIV").1 [0] =
      some (.elem 3 "DIV" [.text 2 "hi"]) ∧
    occursId 1 (insertNode ⟨.elem 0 "DIV" [.elem 1 "P" [.text 2 "hi"]],
        some ⟨2, 1, 2, 1⟩, none, .noSel⟩
        (.text 5 "X") (some ⟨.selectionStart, false, false, false⟩)).core.contentDiv = 0 := by
  obtain ⟨h1, h2, h3, h4⟩ := C2_amended (.elem 0 "DIV" [.elem 1 "P" [.text 2 "hi"]])
    ⟨2, 1, 2, 1⟩ (.text 5 "X") none .noSel false false 1 [0] [.text 2 "hi"]
    (by decide) (by decide) (by decide) (by decide) (by decide) (by decide) (by decide)
    (by decide) (by decide)
  refine ⟨h1, ?_, h4⟩
  rw [show maxId (DomNode.elem 0 "DIV" [DomNode.elem 1 "P" [DomNode.text 2 "hi"]]) + 1 = 3
    from by decide] at h3
  exact h3

theorem getElem?_middle (l1 l2 : List DomNode) (x : DomNode) :
    (l1 ++ x :: l2)[l1.length]? = some x := by
  rw [List.getElem?_append_right (le_refl _)]
  simp

theorem insListAt_eq_cons (cs : List DomNode) (i : Nat) (x : DomNode) :
    insListAt cs i [x] = cs.take i ++ x :: cs.drop i := by
  unfold insListAt
  simp

theorem childList_withChildList_of_not_text (n : DomNode) (cs : List DomNode)
    (h : isTextNode n = false) : (n.withChildList cs).childList = cs := by
  cases n with
  | text i s => simp [isTextNode] at h
  | elem i tg l => rfl
  | frag i l => rfl

/-- `getBlockElementAtNode` returns the identity of a block-level element
lying strictly below the root on the path to the query node. -/
theorem getBlockElementAtNode_spec (t : DomNode) (k b : Nat)
    (h : getBlockElementAtNode t (some k) = some b) :
    ∃ q m, q ≠ [] ∧ nodeAt t q = some m ∧ m.nid = b ∧ isBlockElement m = true := by
  unfold getBlockElementAtNode at h
  cases hp : pathIdx k t with
  | none =>
    simp only [hp] at h
    exact Option.noConfusion h
  | some p =>
    simp only [hp] at h
    clear hp
    -- generalize over the walk state
    suffices hgen : ∀ (p : List Nat) (t0 : DomNode) (best : Option Nat) (q0 : List Nat),
        nodeAt t q0 = some t0 →
        (∀ hb, best = some hb →
          ∃ q m, q ≠ [] ∧ nodeAt t q = some m ∧ m.nid = hb ∧ isBlockElement m = true) →
        blockOnPath t0 best p = some b →
        ∃ q m, q ≠ [] ∧ nodeAt t q = some m ∧ m.nid = b ∧ isBlockElement m = true by
      exact hgen p t none [] rfl (by intro hb hcon; exact Option.noConfusion hcon) h
    intro p
    induction p with
    | nil =>
      intro t0 best q0 hq hbest hres
      exact hbest b hres
    | cons i rest ih =>
      intro t0 best q0 hq hbest hres
      unfold blockOnPath at hres
      cases hc : t0.childList[i]? with
      | none =>
        simp only [hc] at hres
        exact hbest b hres
      | some c =>
        simp only [hc] at hres
        refine ih c _ (q0 ++ [i]) ?_ ?_ hres
        · simp only [nodeAt_append_last, hq, hc]
        · intro hb hcon
          by_cases hbl : isBlockElement c = true
          · simp only [hbl, if_true] at hcon
            refine ⟨q0 ++ [i], c, by simp, ?_, Option.some.inj hcon, hbl⟩
            simp only [nodeAt_append_last, hq, hc]
          · simp only [Bool.not_eq_true] at hbl
            simp only [hbl, Bool.false_eq_true, if_false] at hcon
            exact hbest hb hcon

theorem parentIndexOf_of_nodeAt (t m : DomNode) (q : List Nat) (j : Nat)
    (h : nodeAt t (q ++ [j]) = some m) (hu : occursId m.nid t ≤ 1) :
    parentIndexOf t m.nid = some (q, j) := by
  have hpx := pathIdx_complete t (q ++ [j]) m h hu
  cases hqq : q ++ [j] with
  | nil => exact absurd hqq (by simp)
  | cons a2 as2 =>
    rw [hqq] at hpx
    unfold parentIndexOf
    rw [hpx]
    have hlast : (a2 :: as2).getLast? = some j := by
      rw [← hqq]
      exact List.getLast?_concat _
    have hdrop : (a2 :: as2).dropLast = q := by
      rw [← hqq]
      exact List.dropLast_concat
    simp [hlast, hdrop]

/-- Inserting a fresh non-fragment node into the child list of a non-text
node at a valid path, then wrapping it, leaves the node inside a fresh
empty-DIV wrapper located at the insertion path. -/
theorem insert_then_wrap (t parent node : DomNode) (pp : List Nat) (i : Nat)
    (hq : nodeAt t pp = some parent)
    (hnt : isTextNode parent = false)
    (hwf : (idList t).Nodup)
    (hfresh : ∀ k ∈ idList node, k ∉ idList t)
    (hnodupN : (idList node).Nodup)
    (hfragN : node.isFrag = false) :
    ∃ w p, nodeAt
        (wrapInDiv
          (modifyAtPath t pp (fun n => n.withChildList (insListAt n.childList i (nodesOf node))))
          node.nid) p = some (.elem w "DIV" [node]) := by
  have hno : nodesOf node = [node] := by
    cases node <;> simp [nodesOf, DomNode.isFrag] at hfragN ⊢
  have hPid : ∀ (x : DomNode) (cs : List DomNode),
      (fun m => decide (m.nid = node.nid)) (x.withChildList cs) =
        (fun m => decide (m.nid = node.nid)) x := by
    intro x cs
    simp [nid_withChildList]
  have hzero : occursId node.nid t = 0 := by
    by_contra hcon
    exact hfresh node.nid (nid_mem_idList node) ((mem_idList_iff_occurs _ t).mpr (by omega))
  have hone : occursId node.nid node = 1 := by
    have h1 := occursId_self node
    have h2 : occursId node.nid node = (idList node).count node.nid := occursId_eq_count _ _
    have h3 := List.nodup_iff_count_le_one.mp hnodupN node.nid
    omega
  set t1 := modifyAtPath t pp
    (fun n => n.withChildList (insListAt n.childList i (nodesOf node))) with ht1
  set j := (parent.childList.take i).length with hj
  have hsc : ((parent.withChildList
      (insListAt parent.childList i (nodesOf node))).childList)[j]? = some node := by
    rw [childList_withChildList_of_not_text _ _ hnt, hno, insListAt_eq_cons, hj, getElem?_middle]
  have hnode1 : nodeAt t1 (pp ++ [j]) = some node := by
    rw [ht1, nodeAt_append_last]
    simp only [nodeAt_modifyAtPath pp t parent _ hq, hsc]
  have hcnt1 : occursId node.nid t1 = 1 := by
    have hcount := countP_modifyAtPath (fun m => decide (m.nid = node.nid)) hPid pp t parent
      (fun n => n.withChildList (insListAt n.childList i (nodesOf node))) hq
    have hwc := countP_withChildList (fun m => decide (m.nid = node.nid)) hPid parent
      (insListAt parent.childList i (nodesOf node)) hnt
    have hins := countPL_insListAt (fun m => decide (m.nid = node.nid))
      parent.childList i (nodesOf node)
    have hdecomp := countP_decompose (fun m => decide (m.nid = node.nid)) parent
    have hnodes : countPL (fun m => decide (m.nid = node.nid)) (nodesOf node) = 1 := by
      rw [hno]
      simp only [countPL_cons, countPL_nil]
      simpa [occursId] using hone
    rw [hwc, hins, hnodes] at hcount
    beta_reduce at hcount hdecomp
    simp only [occursId] at hzero ⊢
    rw [ht1]
    omega
  have hpx1 : pathIdx node.nid t1 = some (pp ++ [j]) :=
    pathIdx_complete t1 (pp ++ [j]) node hnode1 (by omega)
  have hparent1 : parentIndexOf t1 node.nid = some (pp, j) :=
    parentIndexOf_of_nodeAt t1 node (pp) j hnode1 (by omega)
  have hq1 : nodeAt t1 pp =
      some (parent.withChildList (insListAt parent.childList i (nodesOf node))) :=
    nodeAt_modifyAtPath pp t parent _ hq
  have hct : (parent.withChildList (insListAt parent.childList i (nodesOf node))).childList
      = insListAt parent.childList i (nodesOf node) :=
    childList_withChildList_of_not_text _ _ hnt
  have hct2 : ∀ l : List DomNode,
      ((parent.withChildList (insListAt parent.childList i (nodesOf node))).withChildList
        l).childList = l := by
    intro l
    apply childList_withChildList_of_not_text
    cases parent <;> simp [isTextNode, DomNode.withChildList] at hnt ⊢
  have hjget : (insListAt parent.childList i (nodesOf node))[j]? = some node := by
    rw [hno, insListAt_eq_cons, hj, getElem?_middle]
  have hscrut : (modAt
      ((parent.withChildList (insListAt parent.childList i (nodesOf node))).childList) j
      (fun c => DomNode.elem (maxId t1 + 1) "DIV" [c]))[j]? =
      some (DomNode.elem (maxId t1 + 1) "DIV" [node]) := by
    rw [hct, getElem_modAt _ j _ node hjget]
  refine ⟨maxId t1 + 1, pp ++ [j], ?_⟩
  unfold wrapInDiv
  rw [hparent1, nodeAt_append_last]
  simp only [nodeAt_modifyAtPath pp t1 _ _ hq1, hct2, hscrut]

theorem insListAt_length (cs new : List DomNode) : insListAt cs cs.length new = cs ++ new := by
  simp [insListAt]

/-- The source's `refParentNode.insertBefore(node, refNode)` and
`refParentNode.insertBefore(node, refNode.nextSibling)` on the node a block
lookup returned, expressed as a child-list splice at the parent's path. -/
theorem insertInParent_as_master (t node : DomNode) (k? : Option Nat) (b : Nat)
    (h : getBlockElementAtNode t k? = some b) (hwf : (idList t).Nodup) :
    ∃ pp parent i, nodeAt t pp = some parent ∧ isTextNode parent = false ∧
      insertInParentBefore t b node =
        modifyAtPath t pp (fun n => n.withChildList (insListAt n.childList i (nodesOf node))) ∧
      insertInParentAfter t b node =
        modifyAtPath t pp
          (fun n => n.withChildList (insListAt n.childList (i + 1) (nodesOf node))) := by
  cases k? with
  | none => simp [getBlockElementAtNode] at h
  | some k =>
    obtain ⟨q, m, hne, hq, hmid, hblk⟩ := getBlockElementAtNode_spec t k b h
    have hps : q.dropLast ++ [q.getLast hne] = q := List.dropLast_append_getLast hne
    have hq2 : nodeAt t (q.dropLast ++ [q.getLast hne]) = some m := by
      rw [hps]
      exact hq
    have hu : occursId m.nid t ≤ 1 := occursId_of_nodup t hwf m.nid
    have hparent := parentIndexOf_of_nodeAt t m q.dropLast (q.getLast hne) hq2 hu
    rw [hmid] at hparent
    have hdec := nodeAt_append_last t q.dropLast (q.getLast hne)
    rw [hq2] at hdec
    cases hpar : nodeAt t q.dropLast with
    | none =>
      rw [hpar] at hdec
      exact absurd hdec (by simp)
    | some par =>
      simp only [hpar] at hdec
      cases hcc : par.childList[q.getLast hne]? with
      | none =>
        simp only [hcc] at hdec
        exact absurd hdec (by simp)
      | some c =>
        simp only [hcc] at hdec
        refine ⟨q.dropLast, par, q.getLast hne, hpar,
          isTextNode_false_of_child par _ _ hcc, ?_, ?_⟩
        · unfold insertInParentBefore
          rw [hparent]
        · unfold insertInParentAfter
          rw [hparent]

/-- Claim C8 (confirmed): for every Begin or End insertion with
insertOnNewLine and a non-block inserted node, the final tree holds the
inserted node as the sole child of a freshly created DIV wrapper. -/
theorem C8_wrap_new_line (t node : DomNode) (lr cr : Option Rng) (sel : SelState)
    (pos : ContentPosition) (uc rs : Bool)
    (hpos : pos = ContentPosition.begin ∨ pos = ContentPosition.atEnd)
    (hroot : isTextNode t = false)
    (hblock : isBlockElement node = false)
    (hfrag : node.isFrag = false)
    (hwf : (idList t).Nodup)
    (hfresh : ∀ k ∈ idList node, k ∉ idList t)
    (hnodupN : (idList node).Nodup) :
    ∃ w p,
      nodeAt (insertNode ⟨t, lr, cr, sel⟩ node (some ⟨pos, uc, rs, true⟩)).core.contentDiv p =
        some (.elem w "DIV" [node]) := by
  have hcdT : ((if uc then focus ⟨t, lr, cr, sel⟩ else ⟨t, lr, cr, sel⟩) :
      EditorCore).contentDiv = t := by
    cases uc
    · rfl
    · simp [contentDiv_focus]
  have hwfin : ∀ X : DomNode, ∀ o : InsertOption, o.insertOnNewLine = true →
      wrapFinal X node o = wrapInDiv X node.nid := by
    intro X o ho
    unfold wrapFinal
    simp [ho, hblock]
  have happend : editChildrenAt t t.nid (fun cs => cs ++ nodesOf node) =
      modifyAtPath t []
        (fun n => n.withChildList (insListAt n.childList t.childList.length (nodesOf node))) := by
    unfold editChildrenAt
    rw [pathIdx_self]
    show t.withChildList (t.childList ++ nodesOf node) =
      t.withChildList (insListAt t.childList t.childList.length (nodesOf node))
    rw [insListAt_length]
  rcases hpos with hp | hp <;> subst hp
  · have hdef : (insertNode ⟨t, lr, cr, sel⟩ node
        (some ⟨ContentPosition.begin, uc, rs, true⟩)).core.contentDiv =
        insertNodeAtBegin
          ((if uc then focus ⟨t, lr, cr, sel⟩ else ⟨t, lr, cr, sel⟩) : EditorCore).contentDiv
          node ⟨ContentPosition.begin, uc, rs, true⟩ := rfl
    rw [hdef, hcdT]
    unfold insertNodeAtBegin
    cases hB : getBlockElementAtNode t (getFirstLeafNode t) with
    | some refNode =>
      obtain ⟨pp, par, i, hpar, hnt, hbef, _⟩ :=
        insertInParent_as_master t node (getFirstLeafNode t) refNode hB hwf
      simp only [hB, if_pos rfl]
      rw [hwfin _ _ rfl, hbef]
      exact insert_then_wrap t par node pp i hpar hnt hwf hfresh hnodupN hfrag
    | none =>
      simp only [hB]
      rw [hwfin _ _ rfl, happend]
      exact insert_then_wrap t t node [] t.childList.length rfl hroot hwf hfresh hnodupN hfrag
  · have hdef : (insertNode ⟨t, lr, cr, sel⟩ node
        (some ⟨ContentPosition.atEnd, uc, rs, true⟩)).core.contentDiv =
        insertNodeAtEnd
          ((if uc then focus ⟨t, lr, cr, sel⟩ else ⟨t, lr, cr, sel⟩) : EditorCore).contentDiv
          node ⟨ContentPosition.atEnd, uc, rs, true⟩ := rfl
    rw [hdef, hcdT]
    unfold insertNodeAtEnd
    cases hB : getBlockElementAtNode t (getLastLeafNode t) with
    | some refNode =>
      obtain ⟨pp, par, i, hpar, hnt, _, haft⟩ :=
        insertInParent_as_master t node (getLastLeafNode t) refNode hB hwf
      simp only [hB, if_pos rfl]
      rw [hwfin _ _ rfl, haft]
      exact insert_then_wrap t par node pp (i + 1) hpar hnt hwf hfresh hnodupN hfrag
    | none =>
      simp only [hB]
      rw [hwfin _ _ rfl, happend]
      exact insert_then_wrap t t node [] t.childList.length rfl hroot hwf hfresh hnodupN hfrag

/-- Witness for C8: inserting a text node at Begin with insertOnNewLine into
`<div><div>hello</div></div>` produces a DIV wrapper whose sole child is the
inserted node at a concrete path. -/
theorem C8_wrap_new_line_witness :
    ∃ w p,
      nodeAt (insertNode ⟨.elem 0 "DIV" [.elem 1 "DIV" [.text 2 "hello"]], none, none, .noSel⟩
          (.text 5 "X") (some ⟨.begin, false, true, true⟩)).core.contentDiv p =
        some (.elem w "DIV" [.text 5 "X"]) :=
  C8_wrap_new_line (.elem 0 "DIV" [.elem 1 "DIV" [.text 2 "hello"]]) (.text 5 "X")
    none none .noSel ContentPosition.begin false true (Or.inl rfl) rfl rfl rfl
    (by decide) (by decide) (by decide)

/-- Claim C3 (confirmed): for a SelectionStart insertion with
replaceSelection over a non-collapsed range with both boundaries in the same
element container (with the adjustment step leaving the range alone: the
containing block is not a P), the selected children are deleted — their
identities are gone from the final tree — and the final tree contains
exactly one copy of the inserted node. -/
theorem C3_replace_selection (t node : DomNode) (r : Rng) (cr : Option Rng) (sel : SelState)
    (uc : Bool) (ps : List Nat) (etag : String) (ecs : List DomNode) (bb : Nat)
    (hcont : nodeAt t ps = some (.elem r.sc etag ecs))
    (hsame : r.ec = r.sc)
    (hlt : r.so < r.eo)
    (hle : r.eo ≤ ecs.length)
    (hwf : (idList t).Nodup)
    (hfresh : ∀ k ∈ idList node, k ∉ idList t)
    (hnodupN : (idList node).Nodup)
    (hfragN : node.isFrag = false)
    (hBB : getBlockElementAtNode
        (selDeleteStep t r ⟨.selectionStart, uc, true, false⟩).1 (some r.sc) = some bb)
    (hTag : getTagOfNode
        ((findNode (selDeleteStep t r ⟨.selectionStart, uc, true, false⟩).1 bb).getD
          (.text 0 "")) ≠ "P") :
    (∀ k ∈ idListL ((ecs.take r.eo).drop r.so),
      occursId k (insertNode ⟨t, some r, cr, sel⟩ node
        (some ⟨.selectionStart, uc, true, false⟩)).core.contentDiv = 0) ∧
    occursId node.nid (insertNode ⟨t, some r, cr, sel⟩ node
        (some ⟨.selectionStart, uc, true, false⟩)).core.contentDiv = 1 := by
  have hPid : ∀ (k : Nat) (x : DomNode) (cs : List DomNode),
      (fun m => decide (m.nid = k)) (x.withChildList cs) = (fun m => decide (m.nid = k)) x := by
    intro k x cs
    simp [nid_withChildList]
  have hupath : occursId r.sc t ≤ 1 := occursId_of_nodup t hwf r.sc
  have hpath : pathIdx r.sc t = some ps := by
    have := pathIdx_complete t ps (.elem r.sc etag ecs) hcont (by simpa using hupath)
    simpa using this
  have hncol : r.collapsed = false := by
    simp [Rng.collapsed]
    omega
  set t1 := modifyAtPath t ps
    (fun m => m.withChildList (m.childList.take r.so ++ m.childList.drop r.eo)) with ht1
  have hdc : deleteContents t r = (t1, collapsedAt r.sc r.so) := by
    rw [ht1]
    unfold deleteContents
    rw [if_neg (by simp [hncol])]
    rw [if_pos hsame.symm]
    rw [if_pos (Nat.le_of_lt hlt)]
    simp only [hpath, hcont]
  have hds : selDeleteStep t r ⟨.selectionStart, uc, true, false⟩ =
      (t1, collapsedAt r.sc r.so) := by
    unfold selDeleteStep
    rw [if_pos (by simp [hncol])]
    exact hdc
  simp only [hds] at hBB hTag
  have htt : (ecs.take r.eo).take r.so = ecs.take r.so := by
    rw [List.take_take]
    rw [Nat.min_eq_left (Nat.le_of_lt hlt)]
  have hsplit : ecs.take r.so ++ (ecs.take r.eo).drop r.so = ecs.take r.eo := by
    rw [← htt]
    exact List.take_append_drop r.so (ecs.take r.eo)
  have hlist : ecs.take r.so ++ ((ecs.take r.eo).drop r.so ++ ecs.drop r.eo) = ecs := by
    rw [← List.append_assoc, hsplit]
    exact List.take_append_drop r.eo ecs
  have hcnt_ecs : ∀ k, countPL (fun n => decide (n.nid = k)) ecs =
      countPL (fun n => decide (n.nid = k)) (ecs.take r.so) +
      countPL (fun n => decide (n.nid = k)) ((ecs.take r.eo).drop r.so) +
      countPL (fun n => decide (n.nid = k)) (ecs.drop r.eo) := by
    intro k
    conv_lhs => rw [← hlist]
    rw [countPL_append, countPL_append]
    omega
  have hdel : ∀ k, occursId k t1 +
      countPL (fun n => decide (n.nid = k)) ((ecs.take r.eo).drop r.so) = occursId k t := by
    intro k
    have hcount := countP_modifyAtPath (fun m => decide (m.nid = k)) (hPid k) ps t
      (.elem r.sc etag ecs)
      (fun m => m.withChildList (m.childList.take r.so ++ m.childList.drop r.eo)) hcont
    have hdecomp := hcnt_ecs k
    rw [← ht1] at hcount
    simp only [occursId]
    simp only [childList_elem, withChildList_elem] at hcount
    simp only [countP, countPL_append, nid_elem] at hcount
    omega
  have hocc_t : ∀ k ∈ idListL ((ecs.take r.eo).drop r.so), 1 ≤ occursId k t := by
    intro k hk
    have h1 : 1 ≤ countPL (fun n => decide (n.nid = k)) ((ecs.take r.eo).drop r.so) := by
      rw [occursIdL_eq_count]
      exact List.one_le_count_iff.mpr hk
    have h2 := hcnt_ecs k
    have h4 := countP_le_of_nodeAt (fun n => decide (n.nid = k)) t (.elem r.sc etag ecs) ps hcont
    simp only [occursId]
    simp only [countP] at h4
    omega
  have hzero1 : ∀ k ∈ idListL ((ecs.take r.eo).drop r.so), occursId k t1 = 0 := by
    intro k hk
    have h1 := hdel k
    have h2 := hocc_t k hk
    have h3 := occursId_of_nodup t hwf k
    have h4 : 1 ≤ countPL (fun n => decide (n.nid = k)) ((ecs.take r.eo).drop r.so) := by
      rw [occursIdL_eq_count]
      exact List.one_le_count_iff.mpr hk
    omega
  have hnid0 : occursId node.nid t1 = 0 := by
    have h1 := hdel node.nid
    have h2 : occursId node.nid t = 0 := by
      by_contra hcon
      have hmem : node.nid ∈ idList t := (mem_idList_iff_occurs _ t).mpr (by omega)
      exact hfresh node.nid (nid_mem_idList node) hmem
    omega
  have hcont1 : nodeAt t1 ps = some (.elem r.sc etag (ecs.take r.so ++ ecs.drop r.eo)) := by
    rw [ht1]
    have := nodeAt_modifyAtPath ps t (.elem r.sc etag ecs)
      (fun m => m.withChildList (m.childList.take r.so ++ m.childList.drop r.eo)) hcont
    simpa using this
  have hsc1 : occursId r.sc t1 ≤ 1 := by
    have h1 := hdel r.sc
    omega
  have hpath1 : pathIdx r.sc t1 = some ps := by
    have := pathIdx_complete t1 ps (.elem r.sc etag (ecs.take r.so ++ ecs.drop r.eo)) hcont1
      (by simpa using hsc1)
    simpa using this
  have hsc : (collapsedAt r.sc r.so).sc = r.sc := rfl
  have hso : (collapsedAt r.sc r.so).so = r.so := rfl
  have hadj : selAdjustStep t1 (collapsedAt r.sc r.so) ⟨.selectionStart, uc, true, false⟩ =
      (t1, collapsedAt r.sc r.so) := by
    unfold selAdjustStep
    simp only [hsc, hBB]
    rw [if_neg (by simp)]
    rw [if_neg hTag]
  have hcore1 : (if uc then focus ⟨t, some r, cr, sel⟩ else ⟨t, some r, cr, sel⟩) =
      (⟨t, some r, cr, sel⟩ : EditorCore) := by
    cases uc <;> rfl
  have hsel2 : (insertNodeAtSelection ⟨t, some r, cr, sel⟩ node
      ⟨.selectionStart, uc, true, false⟩).1.contentDiv =
      insertNodeIntoRange t1 (collapsedAt r.sc r.so) node := by
    unfold insertNodeAtSelection
    simp only [getLiveRange, hds, hadj]
  have hcd : (insertNode ⟨t, some r, cr, sel⟩ node
      (some ⟨.selectionStart, uc, true, false⟩)).core.contentDiv =
      insertNodeIntoRange t1 (collapsedAt r.sc r.so) node := by
    have hdef : (insertNode ⟨t, some r, cr, sel⟩ node
        (some ⟨.selectionStart, uc, true, false⟩)).core.contentDiv =
        (insertNodeAtSelection
          (if uc then focus ⟨t, some r, cr, sel⟩ else ⟨t, some r, cr, sel⟩) node
          ⟨.selectionStart, uc, true, false⟩).1.contentDiv := rfl
    rw [hdef, hcore1]
    exact hsel2
  have hins_eq : insertNodeIntoRange t1 (collapsedAt r.sc r.so) node =
      modifyAtPath t1 ps
        (fun m => m.withChildList (insListAt m.childList r.so (nodesOf node))) := by
    unfold insertNodeIntoRange
    simp only [hsc, hso, hpath1, hcont1]
  have hins_count : ∀ k, occursId k (insertNodeIntoRange t1 (collapsedAt r.sc r.so) node) =
      occursId k t1 + countPL (fun n => decide (n.nid = k)) (nodesOf node) := by
    intro k
    rw [hins_eq]
    have hcount := countP_modifyAtPath (fun m => decide (m.nid = k)) (hPid k) ps t1
      (.elem r.sc etag (ecs.take r.so ++ ecs.drop r.eo))
      (fun m => m.withChildList (insListAt m.childList r.so (nodesOf node))) hcont1
    have hinsL := countPL_insListAt (fun n => decide (n.nid = k))
      (ecs.take r.so ++ ecs.drop r.eo) r.so (nodesOf node)
    simp only [occursId]
    simp only [childList_elem, withChildList_elem] at hcount
    simp only [countP, nid_elem] at hcount
    rw [hinsL] at hcount
    omega
  constructor
  · intro k hk
    rw [hcd, hins_count k]
    have h0 := hzero1 k hk
    have hnotin : countPL (fun n => decide (n.nid = k)) (nodesOf node) = 0 := by
      apply countPL_nodesOf_zero
      intro hkn
      exact hfresh k hkn ((mem_idList_iff_occurs k t).mpr (hocc_t k hk))
    omega
  · rw [hcd, hins_count node.nid]
    have h1 : countPL (fun n => decide (n.nid = node.nid)) (nodesOf node) = 1 := by
      have hs := occursId_self node
      have hb := occursId_of_nodup node hnodupN node.nid
      have hnf : nodesOf node = [node] := by
        cases node with
        | text i s => rfl
        | elem i tg cs => rfl
        | frag i cs => simp [DomNode.isFrag] at hfragN
      rw [hnf]
      simp only [countPL_cons, countPL_nil]
      simp only [occursId] at hs hb
      omega
    omega

/-- Witness for C3: in `<div><div>abc</div></div>` (three one-letter text
children) with the range selecting the middle text node, a SelectionStart
insertion with replaceSelection removes the middle text node's identity from
the tree and the inserted node appears exactly once. -/
theorem C3_replace_selection_witness :
    (∀ k ∈ idListL (([DomNode.text 2 "a", .text 3 "b", .text 4 "c"].take 2).drop 1),
      occursId k (insertNode
        ⟨.elem 0 "DIV" [.elem 1 "DIV" [.text 2 "a", .text 3 "b", .text 4 "c"]],
          some ⟨1, 1, 1, 2⟩, none, .noSel⟩ (.text 9 "X")
        (some ⟨.selectionStart, false, true, false⟩)).core.contentDiv = 0) ∧
    occursId 9 (insertNode
        ⟨.elem 0 "DIV" [.elem 1 "DIV" [.text 2 "a", .text 3 "b", .text 4 "c"]],
          some ⟨1, 1, 1, 2⟩, none, .noSel⟩ (.text 9 "X")
        (some ⟨.selectionStart, false, true, false⟩)).core.contentDiv = 1 :=
  C3_replace_selection (.elem 0 "DIV" [.elem 1 "DIV" [.text 2 "a", .text 3 "b", .text 4 "c"]])
    (.text 9 "X") ⟨1, 1, 1, 2⟩ none .noSel false [0] "DIV"
    [.text 2 "a", .text 3 "b", .text 4 "c"] 1
    (by decide) rfl (by decide) (by decide) (by decide) (by decide) (by decide) rfl
    (by decide) (by decide)

end Rooster
